import Mathlib

/-!
# Topology manager: enumeration of provider hint permutations

A verification development for `pkg/kubelet/cm/topologymanager/policy.go`.

The Go function `iterateAllProviderTopologyHints(allProviderHints, callback)`
walks the Cartesian product of the providers' hint lists with a recursive
closure `iterate(i, accum)` and hands every full permutation to `callback`.

Modelling conventions.

* `TopologyHint` is declared outside `policy.go`; the enumeration never looks
  inside a hint, so the hint type is a parameter `α`.
* A Go slice of hints is modelled by the list of its elements, and the slice of
  slices `allProviderHints` by a list of lists.
* `callback` has an effect on whatever state it closes over.  That state is
  made explicit: a callback is a function `σ → List α → σ`.
* Go recursion consumes stack.  `iterate` takes the number of stack frames that
  may still be pushed (`fuel`) and faults when none is left; the theorems show
  how many frames are enough.
* An out-of-range index is a run-time panic in Go; here it is the fault
  `indexOutOfRange`.
* Ghost state: every entry into `iterate` and every invocation of `callback`
  is appended to a trace, so that statements about "what the callback is
  called with" and "how `iterate` is called" are statements about the value
  returned by the model.

The enumeration is modelled twice.  Over values (`iterate`,
`iterateAllProviderTopologyHints`) a permutation is the list of its elements at
the time the callback is invoked, and the callback is a function of that list.
Over memory (`InMemory.iterate`, `InMemory.iterateAllProviderTopologyHints`)
slices are headers over shared backing arrays and `append` may store in place;
this is where "what is written" can be stated.  `InMemory.run_refines` relates
the two: for a callback that reads the permutation it is handed, the execution
over memory computes the callback state and the trace of the execution over
values.  For a callback that keeps the slice it is handed, or writes to it, the
two differ, and the execution over memory differs from the nested loops of the
doc comment (`InMemory.docCommentLoops`), which build every permutation anew:
successive permutations can share one backing array.

`policy.go` also declares the interface `Policy`.  Its implementations are not
part of the file; the hint merger and the policy variants are modelled from the
specification (`mergePermutation`, `selectBest`, `mergeHints`,
`PolicyVariant.Merge`) and run on the enumeration above.
-/

namespace TopologyManager

/-! ## Definitions -/

/-- Ways in which an execution can stop without returning. -/
inductive Fault where
  | stackExhausted
  | indexOutOfRange
  | invalidSlice
  deriving DecidableEq, Repr

/-- Ghost events recorded during an execution.  `enter budget i accum` is an
entry into `iterate(i, accum)` with `budget` stack frames still available below
the frame just pushed; `invoke p` is a call `callback(p)`. -/
inductive Event (α : Type) where
  | enter (budget : Nat) (i : Nat) (accum : List α)
  | invoke (permutation : List α)
  deriving DecidableEq, Repr

/-- The state threaded through an execution: the state owned by the callback
and the ghost trace. -/
structure Run (σ α : Type) where
  state : σ
  trace : List (Event α)
  deriving DecidableEq, Repr

/-- Append one ghost event. -/
def Run.record {σ α : Type} (r : Run σ α) (e : Event α) : Run σ α :=
  { r with trace := r.trace ++ [e] }

/-- The arguments of the `callback` invocations among a list of ghost events. -/
def invoked {α : Type} (t : List (Event α)) : List (List α) :=
  t.filterMap fun e =>
    match e with
    | .invoke p => some p
    | .enter _ _ _ => none

/-- The permutations handed to the callback, in order of invocation. -/
def Run.passed {σ α : Type} (r : Run σ α) : List (List α) :=
  invoked r.trace

/-- The arguments `(i, accum)` of the entries into `iterate` among a list of
ghost events. -/
def entered {α : Type} (t : List (Event α)) : List (Nat × List α) :=
  t.filterMap fun e =>
    match e with
    | .enter _ i accum => some (i, accum)
    | .invoke _ => none

/-- The arguments `(i, accum)` of every entry into `iterate`, in order. -/
def Run.calls {σ α : Type} (r : Run σ α) : List (Nat × List α) :=
  entered r.trace

/-- The closure `iterate` of `iterateAllProviderTopologyHints`.

```go
iterate = func(i int, accum []TopologyHint) {
    if i == len(allProviderHints) {
        callback(accum)
        return
    }
    for j := range allProviderHints[i] {
        iterate(i+1, append(accum, allProviderHints[i][j]))
    }
}
```

The first `Nat` is the number of stack frames that may still be pushed. -/
def iterate {σ α : Type} (allProviderHints : List (List α)) (callback : σ → List α → σ) :
    Nat → Nat → List α → Run σ α → Except Fault (Run σ α)
  | 0, _, _, _ => .error .stackExhausted
  | fuel + 1, i, accum, r =>
    let r := r.record (.enter fuel i accum)
    if i = allProviderHints.length then
      .ok { (r.record (.invoke accum)) with state := callback r.state accum }
    else
      match allProviderHints[i]? with
      | none => .error .indexOutOfRange
      | some row =>
        (List.range row.length).foldlM
          (fun r j =>
            match (allProviderHints[i]?).bind (fun hintsOfProvider => hintsOfProvider[j]?) with
            | none => .error .indexOutOfRange
            | some hint => iterate allProviderHints callback fuel (i + 1) (accum ++ [hint]) r)
          r

/-- The function `iterateAllProviderTopologyHints`: `iterate(0, []TopologyHint{})`
started with an empty ghost trace and the callback's initial state `s`. -/
def iterateAllProviderTopologyHints {σ α : Type} (fuel : Nat) (allProviderHints : List (List α))
    (callback : σ → List α → σ) (s : σ) : Except Fault (Run σ α) :=
  iterate allProviderHints callback fuel 0 [] { state := s, trace := [] }

/-- The nested loops of the doc comment of `iterateAllProviderTopologyHints`,
as the list of permutations they hand to `callback`:

```go
for i := 0; i < len(providerHints[0]); i++
    for j := 0; j < len(providerHints[1]); j++
        ...
            permutation := []TopologyHint{providerHints[0][i], providerHints[1][j], ...}
            callback(permutation)
```

The outermost loop runs over the first provider. -/
def nestedLoops {α : Type} : List (List α) → List (List α)
  | [] => [[]]
  | row :: rest => row.flatMap fun h => (nestedLoops rest).map fun p => h :: p

/-- The permutation selected by an index tuple: `[hints[0][j₀], hints[1][j₁], …]`,
or `none` when the tuple has the wrong length or an index is out of range. -/
def select {α : Type} : List (List α) → List Nat → Option (List α)
  | [], [] => some []
  | row :: rest, j :: js =>
    match row[j]?, select rest js with
    | some h, some p => some (h :: p)
    | _, _ => none
  | _, _ => none

/-- The index tuples `(i, j, …, z)` visited by the nested loops of the doc
comment, in the order the loops visit them. -/
def indexTuples {α : Type} (allProviderHints : List (List α)) : List (List Nat) :=
  nestedLoops (allProviderHints.map fun row => List.range row.length)

/-- An index tuple is valid for a list of hint lists when it has one index per
provider and every index is within its provider's hint list. -/
def ValidTuple {α : Type} (allProviderHints : List (List α)) (js : List Nat) : Prop :=
  List.Forall₂ (fun j row => j < List.length row) js allProviderHints

/-- Modelled from the spec: the Topology Hint of §3, a pair of an Affinity Mask
(a set of NUMA node identifiers) and the flag `preferred`.  The Go declaration
of `TopologyHint` is outside `policy.go`. -/
structure TopologyHint where
  affinity : Finset Nat
  preferred : Bool
  deriving DecidableEq

/-- Modelled from the spec: the unconstrained hint
`{affinity: full universe, preferred: true}` of §4.2, over the universe
`[0, numNUMANodes)`. -/
def unconstrainedHint (numNUMANodes : Nat) : TopologyHint :=
  { affinity := Finset.range numNUMANodes, preferred := true }

/-- Modelled from the spec: the normalization of §4.2, which the callers of the
enumerator (outside `policy.go`) apply before enumeration: a provider reporting
zero hints is replaced by a single-element list holding the unconstrained hint. -/
def normalizeProviderHints (numNUMANodes : Nat) (allProviderHints : List (List TopologyHint)) :
    List (List TopologyHint) :=
  allProviderHints.map fun row =>
    match row with
    | [] => [unconstrainedHint numNUMANodes]
    | _ :: _ => row

/-! ### The hint merger and the policies

`policy.go` declares the interface `Policy` (`Name`, `Merge`) and nothing of its
implementations.  The definitions below follow §4.3 and §4.4 of the
specification; the enumeration they run is the one of `policy.go`.  `Merge` is
given the flattened, ordered list of hint lists of the data flow of §2. -/

/-- Modelled from the spec: the reduction rule of §4.3, whose Go code is outside
`policy.go`.  A permutation is reduced to one combined hint by intersecting the
affinity masks one after the other, starting from the full universe, and by
setting `preferred` iff every hint of the permutation is preferred. -/
def mergePermutation (numNUMANodes : Nat) (permutation : List TopologyHint) : TopologyHint :=
  permutation.foldl
    (fun merged hint =>
      { affinity := merged.affinity ∩ hint.affinity
        preferred := merged.preferred && hint.preferred })
    (unconstrainedHint numNUMANodes)

/-- Modelled from the spec: the initial "best so far" of §4.3,
`{affinity: empty, preferred: false}`. -/
def initialBest : TopologyHint :=
  { affinity := ∅, preferred := false }

/-- Modelled from the spec: the comparator of §4.3.  A candidate replaces the
current best iff it is preferred and the best is not, or both have the same
`preferred` flag and the candidate's affinity has strictly fewer set bits. -/
def replaces (candidate best : TopologyHint) : Bool :=
  (candidate.preferred && !best.preferred) ||
    (candidate.preferred == best.preferred &&
      decide (candidate.affinity.card < best.affinity.card))

/-- Modelled from the spec: one step of the selection of §4.3, keeping a running
"best so far"; on ties the hint seen first stays. -/
def selectBest (best candidate : TopologyHint) : TopologyHint :=
  if replaces candidate best then candidate else best

/-- The state of the hint merger: the best hint so far and whether any
candidate has passed the policy's filter. -/
structure Merger where
  best : TopologyHint
  survived : Bool
  deriving DecidableEq

/-- Modelled from the spec: the callback the hint merger of §4.3 hands to the
enumerator.  The permutation is reduced to a combined hint; a candidate the
policy's filter `keep` discards is skipped, any other goes through the
comparator. -/
def mergeCallback (numNUMANodes : Nat) (keep : TopologyHint → Bool)
    (merger : Merger) (permutation : List TopologyHint) : Merger :=
  if keep (mergePermutation numNUMANodes permutation) then
    { best := selectBest merger.best (mergePermutation numNUMANodes permutation)
      survived := true }
  else merger

/-- Modelled from the spec: the hint merger of §4.3 on the flattened list of
hint lists: normalization (§4.2), then the enumeration of `policy.go` with the
merger's callback, started from the initial best. -/
def mergeHints (fuel numNUMANodes : Nat) (keep : TopologyHint → Bool)
    (allProviderHints : List (List TopologyHint)) : Except Fault Merger :=
  match iterateAllProviderTopologyHints fuel
      (normalizeProviderHints numNUMANodes allProviderHints)
      (mergeCallback numNUMANodes keep) { best := initialBest, survived := false } with
  | .ok r => .ok r.state
  | .error e => .error e

/-- Modelled from the spec: the four policy variants of §4.4. -/
inductive PolicyVariant where
  | none
  | bestEffort
  | restricted
  | singleNUMANode
  deriving DecidableEq, Repr

/-- Modelled from the spec: the Admission Result of §3,
`{admit: bool, reason: optional string}`.  The field `admit` of the
specification is called `admits` here. -/
structure AdmissionResult where
  admits : Bool
  reason : Option String
  deriving DecidableEq, Repr

/-- Modelled from the spec: the candidate filter of each variant (§4.4).  Only
`SingleNUMANode` discards candidates: those whose intersected affinity does not
have exactly one set bit. -/
def PolicyVariant.keep : PolicyVariant → TopologyHint → Bool
  | .singleNUMANode, candidate => decide (candidate.affinity.card = 1)
  | _, _ => true

/-- Modelled from the spec: `Policy.Merge` (§4.4, §6), declared in `policy.go`
and implemented outside it.  `None` skips the merge, so that its hint is the
initial best; the other variants run the hint merger and map the best hint to a
verdict. -/
def PolicyVariant.Merge (policy : PolicyVariant) (fuel numNUMANodes : Nat)
    (allProviderHints : List (List TopologyHint)) :
    Except Fault (TopologyHint × AdmissionResult) :=
  match policy with
  | .none => .ok (initialBest, { admits := true, reason := Option.none })
  | .bestEffort =>
    match mergeHints fuel numNUMANodes policy.keep allProviderHints with
    | .ok merger => .ok (merger.best, { admits := true, reason := Option.none })
    | .error e => .error e
  | .restricted =>
    match mergeHints fuel numNUMANodes policy.keep allProviderHints with
    | .ok merger =>
      .ok (merger.best,
        if merger.best.preferred then { admits := true, reason := Option.none }
        else { admits := false, reason := some "resources cannot be aligned" })
    | .error e => .error e
  | .singleNUMANode =>
    match mergeHints fuel numNUMANodes policy.keep allProviderHints with
    | .ok merger =>
      .ok (merger.best,
        if merger.survived && merger.best.preferred then
          { admits := true, reason := Option.none }
        else { admits := false, reason := some "no single NUMA node alignment" })
    | .error e => .error e

/-! ### Reference operations on lists of providers -/

/-- Exchange the elements at positions `k` and `k + 1` of a list (the list is
returned as it is when it has no position `k + 1`). -/
def swapAdjacent {α : Type} : Nat → List α → List α
  | 0, a :: b :: rest => b :: a :: rest
  | k + 1, a :: rest => a :: swapAdjacent k rest
  | _, l => l

/-- The second arguments of the calls `iterate(d, accum)` among a list of calls
`(i, accum)`, in order. -/
def callsAt {α : Type} (d : Nat) (calls : List (Nat × List α)) : List (List α) :=
  calls.filterMap fun call => if call.1 = d then some call.2 else none

/-! ### The enumeration over Go memory

The definitions above treat slices as values.  In Go a slice is a header
`(array, offset, len, cap)` over a backing array, and `append(accum, x)` stores
`x` in place when `accum` has spare capacity, so that slices share memory.  The
definitions below repeat the enumeration over an explicit memory, in order to
state what it writes.

* Memory is a list of backing arrays of hints and a list of backing arrays of
  slice headers (Go is typed: a hint is never stored in an array of headers).
  Arrays are identified by their position; allocation adds an array at the end.
* The capacity chosen when `append` has to reallocate is the business of the Go
  run time: it is the needed length plus `extraCap oldCap neededLen`, for a
  parameter `extraCap`.  The spare cells hold the zero value `zero`.
* A callback may read and write memory and may hold on to the slice it is
  handed: it is a function `σ → Memory α → Slice → σ × Memory α`.
* A slice header that does not lie within an allocated array cannot arise in
  Go; dereferencing one is the fault `invalidSlice`. -/

/-- A Go slice header: backing array, index of the first element in that array,
length and capacity. -/
structure Slice where
  array : Nat
  offset : Nat
  len : Nat
  cap : Nat
  deriving DecidableEq, Repr

/-- Go memory, as far as the enumeration is concerned. -/
structure Memory (α : Type) where
  headerArrays : List (List Slice)
  hintArrays : List (List α)
  deriving DecidableEq, Repr

/-- The cells of a backing array of hints (no cell when there is no such array). -/
def Memory.hintCells {α : Type} (m : Memory α) (a : Nat) : List α :=
  (m.hintArrays[a]?).getD []

/-- The cells of a backing array of slice headers. -/
def Memory.headerCells {α : Type} (m : Memory α) (a : Nat) : List Slice :=
  (m.headerArrays[a]?).getD []

/-- The index expression `s[i]` for `s` of type `[][]TopologyHint`. -/
def Memory.readHeader {α : Type} (m : Memory α) (s : Slice) (i : Nat) : Except Fault Slice :=
  if i < s.len then
    match (m.headerCells s.array)[s.offset + i]? with
    | some header => .ok header
    | none => .error .invalidSlice
  else .error .indexOutOfRange

/-- The index expression `s[j]` for `s` of type `[]TopologyHint`. -/
def Memory.readHint {α : Type} (m : Memory α) (s : Slice) (j : Nat) : Except Fault α :=
  if j < s.len then
    match (m.hintCells s.array)[s.offset + j]? with
    | some hint => .ok hint
    | none => .error .invalidSlice
  else .error .indexOutOfRange

/-- The elements of a slice of hints. -/
def Memory.contents {α : Type} (m : Memory α) (s : Slice) : List α :=
  ((m.hintCells s.array).drop s.offset).take s.len

/-- The elements of a slice of slice headers. -/
def Memory.headers {α : Type} (m : Memory α) (s : Slice) : List Slice :=
  ((m.headerCells s.array).drop s.offset).take s.len

/-- The value of a `[][]TopologyHint`: the list of the hint lists of its rows. -/
def Memory.hintLists {α : Type} (m : Memory α) (s : Slice) : List (List α) :=
  (m.headers s).map m.contents

/-- The built-in `append(s, x)` for one element.  With spare capacity the
element is stored in the cell after the last element of `s` and the result
shares the backing array of `s`; otherwise a new array is allocated, the
elements of `s` are copied into it and the element is stored after them. -/
def Memory.append {α : Type} (zero : α) (extraCap : Nat → Nat → Nat) (m : Memory α)
    (s : Slice) (x : α) : Except Fault (Slice × Memory α) :=
  if s.len < s.cap then
    if s.offset + s.len < (m.hintCells s.array).length then
      .ok ({ s with len := s.len + 1 },
        { m with hintArrays :=
            m.hintArrays.set s.array ((m.hintCells s.array).set (s.offset + s.len) x) })
    else .error .invalidSlice
  else
    let spare := extraCap s.cap (s.len + 1)
    .ok ({ array := m.hintArrays.length, offset := 0, len := s.len + 1, cap := s.len + 1 + spare },
      { m with hintArrays :=
          m.hintArrays ++ [m.contents s ++ x :: List.replicate spare zero] })

/-- The slice literal `[]TopologyHint{}`: no element, no capacity.  Its array
field is never dereferenced. -/
def Slice.empty : Slice :=
  { array := 0, offset := 0, len := 0, cap := 0 }

/-- The cells of the spare capacity of a slice: the cells of its backing array
after its last element and within its capacity. -/
def Slice.spare (s : Slice) (a k : Nat) : Prop :=
  a = s.array ∧ s.offset + s.len ≤ k ∧ k < s.offset + s.cap

/-- A slice of hints whose capacity lies within its backing array. -/
def Memory.ValidAccum {α : Type} (m : Memory α) (s : Slice) : Prop :=
  s.len ≤ s.cap ∧ (s.cap = 0 ∨ s.offset + s.cap ≤ (m.hintCells s.array).length)

/-- A `[][]TopologyHint` that lies within allocated memory: the slice of headers
lies within its backing array, and so does every row. -/
def Memory.WellFormed {α : Type} (m : Memory α) (s : Slice) : Prop :=
  s.offset + s.len ≤ (m.headerCells s.array).length ∧
    ∀ row ∈ m.headers s, row.offset + row.len ≤ (m.hintCells row.array).length

/-- The spare capacity of `accum` contains no cell of a row of `outer`. -/
def Memory.Apart {α : Type} (m : Memory α) (outer accum : Slice) : Prop :=
  ∀ row ∈ m.headers outer, ∀ k, row.offset ≤ k → k < row.offset + row.len →
    ¬ accum.spare row.array k

instance Memory.decidableValidAccum {α : Type} (m : Memory α) (s : Slice) :
    Decidable (m.ValidAccum s) := by
  unfold Memory.ValidAccum
  exact inferInstance

instance Memory.decidableWellFormed {α : Type} (m : Memory α) (s : Slice) :
    Decidable (m.WellFormed s) := by
  unfold Memory.WellFormed
  exact inferInstance

/-- Memory `m'` arises from `m` by writing at most the hint cells in `W`, and by
allocation: the arrays of slice headers are the same, every array of hints of
`m` is still there with the same number of cells, and its cells outside `W` hold
what they held. -/
def Memory.SameExcept {α : Type} (W : Nat → Nat → Prop) (m m' : Memory α) : Prop :=
  m'.headerArrays = m.headerArrays ∧
    ∀ a cells, m.hintArrays[a]? = some cells →
      ∃ cells', m'.hintArrays[a]? = some cells' ∧ cells'.length = cells.length ∧
        ∀ k, ¬ W a k → cells'[k]? = cells[k]?

namespace InMemory

/-- The state threaded through an execution over memory: the state owned by the
callback, the memory, and the ghost trace, which records the elements of
`accum` at every entry into `iterate` and at every invocation of `callback`. -/
structure Run (σ α : Type) where
  state : σ
  memory : Memory α
  trace : List (Event α)
  deriving DecidableEq, Repr

/-- The part of an execution over memory that an execution over values has as
well: the callback's state and the ghost trace. -/
def Run.forget {σ α : Type} (r : Run σ α) : TopologyManager.Run σ α :=
  { state := r.state, trace := r.trace }

/-- The closure `iterate` of `iterateAllProviderTopologyHints`, over memory. -/
def iterate {σ α : Type} (zero : α) (extraCap : Nat → Nat → Nat) (allProviderHints : Slice)
    (callback : σ → Memory α → Slice → σ × Memory α) :
    Nat → Nat → Slice → Run σ α → Except Fault (Run σ α)
  | 0, _, _, _ => .error .stackExhausted
  | fuel + 1, i, accum, r =>
    let r := { r with trace := r.trace ++ [.enter fuel i (r.memory.contents accum)] }
    if i = allProviderHints.len then
      .ok { state := (callback r.state r.memory accum).1
            memory := (callback r.state r.memory accum).2
            trace := r.trace ++ [.invoke (r.memory.contents accum)] }
    else do
      let row ← r.memory.readHeader allProviderHints i
      (List.range row.len).foldlM
        (fun r j => do
          let hintsOfProvider ← r.memory.readHeader allProviderHints i
          let hint ← r.memory.readHint hintsOfProvider j
          let appended ← r.memory.append zero extraCap accum hint
          iterate zero extraCap allProviderHints callback fuel (i + 1) appended.1
            { r with memory := appended.2 })
        r

/-- The function `iterateAllProviderTopologyHints` over memory:
`iterate(0, []TopologyHint{})`. -/
def iterateAllProviderTopologyHints {σ α : Type} (zero : α) (extraCap : Nat → Nat → Nat)
    (fuel : Nat) (allProviderHints : Slice) (callback : σ → Memory α → Slice → σ × Memory α)
    (s : σ) (m : Memory α) : Except Fault (Run σ α) :=
  iterate zero extraCap allProviderHints callback fuel 0 Slice.empty
    { state := s, memory := m, trace := [] }

/-- A callback that only reads the permutation it is handed, at the time it is
handed it: the callback `callback` on values, seen as a callback on memory. -/
def readOnly {σ α : Type} (callback : σ → List α → σ) : σ → Memory α → Slice → σ × Memory α :=
  fun s m permutation => (callback s (m.contents permutation), m)

/-- An example memory: three arrays of hints (natural numbers stand for hints)
and one array of four slice headers, two of which share a backing array. -/
def exampleMemory : Memory Nat :=
  { headerArrays := [[⟨0, 0, 2, 3⟩, ⟨1, 1, 1, 1⟩, ⟨0, 1, 2, 2⟩, ⟨2, 0, 2, 2⟩]]
    hintArrays := [[1, 2, 3], [0, 4], [5, 6]] }

/-- An example `allProviderHints` in `exampleMemory`: the four providers
`[1, 2]`, `[4]`, `[2, 3]` and `[5, 6]`. -/
def exampleHints : Slice :=
  { array := 0, offset := 0, len := 4, cap := 4 }

/-- The growth of capacity of the gc run time for small slices: `append` on a
full slice doubles the capacity, unless more is needed.  As a value of the
parameter `extraCap`: the new capacity is `neededLen + (2 * oldCap - neededLen)`,
that is 1, 2, 4 for a slice grown from empty one element at a time. -/
def doubling (oldCap neededLen : Nat) : Nat :=
  2 * oldCap - neededLen

/-- A memory holding the hint lists `[1]`, `[2]`, `[3]`, `[4, 5]` of four
providers (natural numbers stand for hints), each in an array of its own. -/
def fourProviders : Memory Nat :=
  { headerArrays := [[⟨0, 0, 1, 1⟩, ⟨1, 0, 1, 1⟩, ⟨2, 0, 1, 1⟩, ⟨3, 0, 2, 2⟩]]
    hintArrays := [[1], [2], [3], [4, 5]] }

/-- The `allProviderHints` of `fourProviders`: `[[1], [2], [3], [4, 5]]`. -/
def fourProvidersHints : Slice :=
  { array := 0, offset := 0, len := 4, cap := 4 }

/-- A callback that keeps the permutations it is handed,
`func(p []TopologyHint) { kept = append(kept, p) }`: its state is the list of
the slices handed over so far. -/
def keeping {α : Type} : List Slice → Memory α → Slice → List Slice × Memory α :=
  fun kept m permutation => (kept ++ [permutation], m)

/-- A callback that notes the elements of the permutation it is handed and then
assigns to its first element, `func(p []TopologyHint) { seen(p); p[0] = x }`. -/
def notingThenWriting {α : Type} (x : α) :
    List (List α) → Memory α → Slice → List (List α) × Memory α :=
  fun seen m permutation =>
    (seen ++ [m.contents permutation],
      { headerArrays := m.headerArrays
        hintArrays := m.hintArrays.set permutation.array
          (List.set (m.hintCells permutation.array) permutation.offset x) })

/-- The nested loops of the doc comment of `iterateAllProviderTopologyHints`,
over memory.  Each `permutation := []TopologyHint{...}` is a composite literal:
a slice over a newly allocated array holding the selected hints. -/
def docCommentLoops {σ α : Type} (allProviderHints : Slice)
    (callback : σ → Memory α → Slice → σ × Memory α) (s : σ) (m : Memory α) : σ × Memory α :=
  (nestedLoops (m.hintLists allProviderHints)).foldl
    (fun state permutation =>
      callback state.1
        { headerArrays := state.2.headerArrays
          hintArrays := state.2.hintArrays ++ [permutation] }
        { array := state.2.hintArrays.length, offset := 0
          len := permutation.length, cap := permutation.length })
    (s, m)

end InMemory

/-- The ghost trace written by `iterate(i, accum)` when the providers still to
be visited have the hint lists `rows` and `budget` frames remain below the
frame of this call.  Used to state what `iterate` records. -/
def traceFrom {α : Type} : List (List α) → Nat → Nat → List α → List (Event α)
  | [], budget, i, accum => [.enter budget i accum, .invoke accum]
  | row :: rest, budget, i, accum =>
    .enter budget i accum ::
      row.flatMap fun h => traceFrom rest (budget - 1) (i + 1) (accum ++ [h])

/-- The run reached from `r` after the recursive calls made by one provider's loop. -/
def afterLoop {σ α : Type} (callback : σ → List α → σ) (rest : List (List α))
    (budget i : Nat) (accum : List α) (r : Run σ α) (row : List α) : Run σ α :=
  { state := (row.flatMap fun h => (nestedLoops rest).map fun p => h :: p).foldl
      (fun s p => callback s (accum ++ p)) r.state
    trace := r.trace ++ row.flatMap fun h => traceFrom rest budget (i + 1) (accum ++ [h]) }

/-! ## The enumeration in closed form -/

theorem foldlM_ok_of_forall {ε α β : Type} (g : β → α → Except ε β) (g' : β → α → β)
    (l : List α) (hg : ∀ b a, a ∈ l → g b a = .ok (g' b a)) (b : β) :
    l.foldlM g b = .ok (l.foldl g' b) := by
  induction l generalizing b with
  | nil => rfl
  | cons a l ih =>
    rw [List.foldlM_cons, hg b a (List.mem_cons_self _ _)]
    exact ih (fun b x hx => hg b x (List.mem_cons_of_mem _ hx)) _

theorem foldlM_rangeFrom_index {ε α β : Type} (k : β → Option α → Except ε β) :
    ∀ (rest pre : List α) (b : β),
      (List.range' pre.length rest.length).foldlM (fun b j => k b (pre ++ rest)[j]?) b
        = rest.foldlM (fun b h => k b (some h)) b := by
  intro rest
  induction rest with
  | nil => intro pre b; rfl
  | cons x xs ih =>
    intro pre b
    simp only [List.length_cons, List.range'_succ, List.foldlM_cons]
    have hx : (pre ++ x :: xs)[pre.length]? = some x := by
      rw [List.getElem?_append_right (Nat.le_refl _)]; simp
    simp only [hx]
    congr 1
    funext b'
    have := ih (pre ++ [x]) b'
    simpa using this

theorem foldlM_range_index {ε α β : Type} (k : β → Option α → Except ε β)
    (row : List α) (b : β) :
    (List.range row.length).foldlM (fun b j => k b row[j]?) b
      = row.foldlM (fun b h => k b (some h)) b := by
  have := foldlM_rangeFrom_index k row [] b
  simpa [List.range_eq_range'] using this

theorem foldl_afterLoop {σ α : Type} (callback : σ → List α → σ) (rest : List (List α))
    (budget i : Nat) (accum : List α) (row : List α) (r : Run σ α) :
    row.foldl (fun r h => afterLoop callback rest budget i accum r [h]) r
      = afterLoop callback rest budget i accum r row := by
  induction row generalizing r with
  | nil => simp [afterLoop]
  | cons h row ih =>
    rw [List.foldl_cons, ih]
    simp [afterLoop, List.foldl_append, List.foldl_map]

theorem iterate_eq {σ α : Type} (hints : List (List α)) (callback : σ → List α → σ) :
    ∀ (fuel i : Nat) (accum : List α) (r : Run σ α),
      i ≤ hints.length → hints.length - i ≤ fuel →
      iterate hints callback (fuel + 1) i accum r =
        .ok { state := (nestedLoops (hints.drop i)).foldl
                (fun s p => callback s (accum ++ p)) r.state
              trace := r.trace ++ traceFrom (hints.drop i) fuel i accum } := by
  intro fuel
  induction fuel with
  | zero =>
    intro i accum r hi hf
    have hiN : i = hints.length := by omega
    subst hiN
    simp [iterate, Run.record, nestedLoops, traceFrom]
  | succ fuel ih =>
    intro i accum r hi hf
    by_cases hiN : i = hints.length
    · subst hiN
      simp [iterate, Run.record, nestedLoops, traceFrom]
    · have hlt : i < hints.length := by omega
      have hrow : hints[i]? = some hints[i] := List.getElem?_eq_getElem hlt
      have hdrop : hints.drop i = hints[i] :: hints.drop (i + 1) := List.drop_eq_getElem_cons hlt
      rw [iterate]
      simp only [hiN, if_false, hrow, Option.some_bind]
      refine (foldlM_range_index
        (fun (r : Run σ α) (o : Option α) =>
          match o with
          | none => Except.error Fault.indexOutOfRange
          | some hint => iterate hints callback (fuel + 1) (i + 1) (accum ++ [hint]) r)
        hints[i] _).trans ?_
      rw [foldlM_ok_of_forall _
        (fun r h => afterLoop callback (hints.drop (i + 1)) fuel i accum r [h])]
      · rw [foldl_afterLoop, hdrop]
        simp [afterLoop, Run.record, nestedLoops, traceFrom]
      · intro r' h _
        show iterate hints callback (fuel + 1) (i + 1) (accum ++ [h]) r' = _
        rw [ih (i + 1) (accum ++ [h]) r' (by omega) (by omega)]
        simp [afterLoop, List.foldl_map]

/-! ## The nested loops of the doc comment -/

theorem length_nestedLoops {α : Type} (rows : List (List α)) :
    (nestedLoops rows).length = (rows.map List.length).prod := by
  induction rows with
  | nil => rfl
  | cons row rest ih =>
    simp only [nestedLoops, List.map_cons, List.prod_cons]
    induction row with
    | nil => simp
    | cons h row ihr =>
      simp only [List.flatMap_cons, List.length_append, List.length_map, ihr, ih,
        List.length_cons]
      ring

theorem mem_nestedLoops {α : Type} (rows : List (List α)) (p : List α) :
    p ∈ nestedLoops rows ↔ List.Forall₂ (fun h row => h ∈ row) p rows := by
  induction rows generalizing p with
  | nil => simp [nestedLoops]
  | cons row rest ih =>
    simp only [nestedLoops, List.mem_flatMap, List.mem_map]
    constructor
    · rintro ⟨h, hrow, q, hq, rfl⟩
      exact List.Forall₂.cons hrow ((ih q).1 hq)
    · intro hp
      cases hp with
      | cons hh hq => exact ⟨_, hh, _, (ih _).2 hq, rfl⟩

theorem nestedLoops_eq_nil {α : Type} (rows : List (List α)) :
    nestedLoops rows = [] ↔ [] ∈ rows := by
  induction rows with
  | nil => simp [nestedLoops]
  | cons row rest ih =>
    simp only [nestedLoops, List.flatMap_eq_nil_iff, List.map_eq_nil_iff, ih, List.mem_cons]
    constructor
    · intro h
      cases row with
      | nil => exact Or.inl rfl
      | cons x xs => exact Or.inr (h x (List.mem_cons_self _ _))
    · rintro (h | h)
      · subst h; intro x hx; cases hx
      · intro _ _; exact h

theorem nestedLoops_map {α β : Type} (f : α → β) (rows : List (List α)) :
    nestedLoops (rows.map (List.map f)) = (nestedLoops rows).map (List.map f) := by
  induction rows with
  | nil => rfl
  | cons row rest ih =>
    simp only [List.map_cons, nestedLoops, ih, List.flatMap_map, List.map_flatMap, List.map_map]
    rfl

theorem invoked_traceFrom {α : Type} (rows : List (List α)) (budget i : Nat) (accum : List α) :
    invoked (traceFrom rows budget i accum) = (nestedLoops rows).map fun p => accum ++ p := by
  induction rows generalizing budget i accum with
  | nil => simp [invoked, traceFrom, nestedLoops]
  | cons row rest ih =>
    simp only [traceFrom, nestedLoops, invoked, List.filterMap_cons, List.filterMap_flatMap,
      List.map_flatMap, List.map_map]
    congr 1
    funext h
    have := ih (budget - 1) (i + 1) (accum ++ [h])
    simp only [invoked] at this
    rw [this]
    simp


theorem select_indexTuples {α : Type} (rows : List (List α)) :
    (indexTuples rows).map (select rows) = (nestedLoops rows).map some := by
  induction rows with
  | nil => rfl
  | cons row rest ih =>
    simp only [indexTuples, List.map_cons, nestedLoops, List.map_flatMap, List.map_map] at ih ⊢
    have hstep : ∀ j : Nat, ∀ x : α, row[j]? = some x →
        List.map (select (row :: rest) ∘ fun p => j :: p)
            (nestedLoops (List.map (fun row => List.range row.length) rest))
          = List.map (some ∘ fun p => x :: p) (nestedLoops rest) := by
      intro j x hx
      have : (select (row :: rest) ∘ fun p => j :: p)
          = (fun o : Option (List α) => o.map (fun p => x :: p)) ∘ select rest := by
        funext js
        simp only [Function.comp, select, hx]
        cases select rest js <;> rfl
      rw [this, ← List.map_map, ih, List.map_map]
      rfl
    have hgen : ∀ (pre suf : List α), row = pre ++ suf →
        List.flatMap (List.range' pre.length suf.length)
            (fun j => List.map (select (row :: rest) ∘ fun p => j :: p)
              (nestedLoops (List.map (fun row => List.range row.length) rest)))
          = List.flatMap suf (fun x => List.map (some ∘ fun p => x :: p) (nestedLoops rest)) := by
      intro pre suf
      induction suf generalizing pre with
      | nil => intro _; rfl
      | cons x xs ihs =>
        intro hrow
        simp only [List.length_cons, List.range'_succ, List.flatMap_cons]
        have hx : row[pre.length]? = some x := by
          rw [hrow, List.getElem?_append_right (Nat.le_refl _)]; simp
        rw [hstep _ _ hx]
        have := ihs (pre ++ [x]) (by simp [hrow])
        simp only [List.length_append, List.length_singleton] at this
        rw [this]
    have := hgen [] row rfl
    simpa [List.range_eq_range'] using this

theorem mem_indexTuples {α : Type} (rows : List (List α)) (js : List Nat) :
    js ∈ indexTuples rows ↔ ValidTuple rows js := by
  unfold indexTuples ValidTuple
  rw [mem_nestedLoops]
  induction rows generalizing js with
  | nil => constructor <;> (intro h; cases h; exact List.Forall₂.nil)
  | cons row rest ih =>
    constructor
    · intro h
      cases h with
      | cons hj hjs => exact List.Forall₂.cons (by simpa using hj) ((ih _).1 hjs)
    · intro h
      cases h with
      | cons hj hjs => exact List.Forall₂.cons (by simpa using hj) ((ih _).2 hjs)

theorem pairwise_lex_nestedLoops {α : Type} (lt : α → α → Prop) (rows : List (List α))
    (hrows : ∀ row ∈ rows, row.Pairwise lt) :
    (nestedLoops rows).Pairwise (List.Lex lt) := by
  induction rows with
  | nil => simp [nestedLoops]
  | cons row rest ih =>
    have hrest := ih (fun r hr => hrows r (List.mem_cons_of_mem _ hr))
    have hrow := hrows row (List.mem_cons_self _ _)
    simp only [nestedLoops]
    rw [List.pairwise_flatMap]
    refine ⟨fun h _ => ?_, ?_⟩
    · rw [List.pairwise_map]
      exact hrest.imp (fun hl => List.Lex.cons hl)
    · refine hrow.imp ?_
      intro a b hab x hx y hy
      simp only [List.mem_map] at hx hy
      obtain ⟨p, _, rfl⟩ := hx
      obtain ⟨q, _, rfl⟩ := hy
      exact List.Lex.rel hab

theorem pairwise_lex_indexTuples {α : Type} (rows : List (List α)) :
    (indexTuples rows).Pairwise (List.Lex (· < ·)) := by
  apply pairwise_lex_nestedLoops
  intro row hrow
  simp only [List.mem_map] at hrow
  obtain ⟨r, _, rfl⟩ := hrow
  exact List.pairwise_lt_range _

theorem not_lex_lt_self (js : List Nat) : ¬ List.Lex (· < ·) js js := by
  induction js with
  | nil => exact fun h => nomatch h
  | cons j js ih =>
    intro h
    cases h with
    | cons h => exact ih h
    | rel h => exact Nat.lt_irrefl _ h

theorem nodup_indexTuples {α : Type} (rows : List (List α)) : (indexTuples rows).Nodup := by
  have h := pairwise_lex_indexTuples rows
  refine h.imp ?_
  intro a b hab heq
  subst heq
  exact not_lex_lt_self a hab

/-! ## What `iterate` records -/

theorem enter_mem_traceFrom {α : Type} (rows : List (List α)) :
    ∀ (budget i : Nat) (accum : List α) (b k : Nat) (acc : List α),
      Event.enter b k acc ∈ traceFrom rows budget i accum →
        i ≤ k ∧ k ≤ i + rows.length ∧ (rows.length ≤ budget → b + k = budget + i) ∧
          acc.length = accum.length + (k - i) ∧ ∃ t, acc = accum ++ t := by
  induction rows with
  | nil =>
    intro budget i accum b k acc h
    simp only [traceFrom, List.mem_cons, List.mem_singleton, Event.enter.injEq] at h
    rcases h with ⟨rfl, rfl, rfl⟩ | h
    · exact ⟨Nat.le_refl _, by simp, fun _ => rfl, by simp, [], by simp⟩
    · rcases h with h | h
      · cases h
      · cases h
  | cons row rest ih =>
    intro budget i accum b k acc h
    simp only [traceFrom, List.mem_cons, Event.enter.injEq, List.mem_flatMap] at h
    rcases h with ⟨rfl, rfl, rfl⟩ | ⟨x, _, hx⟩
    · exact ⟨Nat.le_refl _, by simp, fun _ => rfl, by simp, [], by simp⟩
    · obtain ⟨h1, h2, h3, h4, t, ht⟩ := ih (budget - 1) (i + 1) (accum ++ [x]) b k acc hx
      refine ⟨by omega, by simp only [List.length_cons]; omega, ?_, ?_, x :: t, by simp [ht]⟩
      · intro hb
        simp only [List.length_cons] at hb
        have := h3 (by omega)
        omega
      · simp only [List.length_append, List.length_singleton] at h4
        omega

theorem head_traceFrom {α : Type} (rows : List (List α)) (budget i : Nat) (accum : List α) :
    (traceFrom rows budget i accum).head? = some (.enter budget i accum) := by
  cases rows <;> rfl

theorem run_eq {σ α : Type} (hints : List (List α)) (callback : σ → List α → σ) (s : σ)
    (fuel : Nat) (hfuel : hints.length < fuel) :
    iterateAllProviderTopologyHints fuel hints callback s =
      .ok { state := (nestedLoops hints).foldl callback s
            trace := traceFrom hints (fuel - 1) 0 [] } := by
  obtain ⟨f, rfl⟩ : ∃ f, fuel = f + 1 := ⟨fuel - 1, by omega⟩
  unfold iterateAllProviderTopologyHints
  rw [iterate_eq hints callback f 0 [] _ (Nat.zero_le _) (by omega)]
  simp

theorem passed_run {σ α : Type} (hints : List (List α)) (callback : σ → List α → σ) (s : σ)
    (fuel : Nat) (hfuel : hints.length < fuel) :
    ∃ r, iterateAllProviderTopologyHints fuel hints callback s = .ok r ∧
      r.passed = nestedLoops hints ∧ r.state = (nestedLoops hints).foldl callback s := by
  refine ⟨_, run_eq hints callback s fuel hfuel, ?_, rfl⟩
  simp [Run.passed, invoked_traceFrom]

theorem entered_traceFrom_budget {α : Type} (rows : List (List α)) :
    ∀ (b₁ b₂ i : Nat) (accum : List α),
      entered (traceFrom rows b₁ i accum) = entered (traceFrom rows b₂ i accum) := by
  induction rows with
  | nil => intro b₁ b₂ i accum; rfl
  | cons row rest ih =>
    intro b₁ b₂ i accum
    simp only [traceFrom, entered, List.filterMap_cons, List.filterMap_flatMap]
    congr 2
    funext h
    exact ih (b₁ - 1) (b₂ - 1) (i + 1) (accum ++ [h])

theorem iterate_stack_exhausted {σ α : Type} (hints : List (List α)) (callback : σ → List α → σ)
    (hne : [] ∉ hints) :
    ∀ (fuel i : Nat) (accum : List α) (r : Run σ α),
      i + fuel ≤ hints.length →
      iterate hints callback fuel i accum r = .error .stackExhausted := by
  intro fuel
  induction fuel with
  | zero => intro i accum r _; rfl
  | succ fuel ih =>
    intro i accum r hi
    have hlt : i < hints.length := by omega
    have hiN : i ≠ hints.length := by omega
    have hrow : hints[i]? = some hints[i] := List.getElem?_eq_getElem hlt
    have hmem : hints[i] ∈ hints := List.getElem_mem hlt
    rw [iterate]
    simp only [hiN, if_false, hrow, Option.some_bind]
    cases hr : hints[i] with
    | nil => exact absurd (hr ▸ hmem) hne
    | cons x xs =>
      simp only [List.length_cons, List.range_succ_eq_map, List.foldlM_cons,
        List.getElem?_cons_zero]
      rw [ih (i + 1) (accum ++ [x]) _ (by omega)]
      rfl

theorem select_of_validTuple {α : Type} (rows : List (List α)) (js : List Nat)
    (h : ValidTuple rows js) : ∃ p, select rows js = some p := by
  induction rows generalizing js with
  | nil => cases h; exact ⟨[], rfl⟩
  | cons row rest ih =>
    cases h with
    | cons hj hjs =>
      obtain ⟨p, hp⟩ := ih _ hjs
      exact ⟨row.get ⟨_, hj⟩ :: p, by simp only [select, List.getElem?_eq_getElem hj, hp]; rfl⟩

theorem normalizeProviderHints_set (numNUMANodes : Nat) (hints : List (List TopologyHint))
    (k : Nat) (hk : hints[k]? = some []) :
    normalizeProviderHints numNUMANodes (hints.set k [unconstrainedHint numNUMANodes])
      = normalizeProviderHints numNUMANodes hints := by
  induction hints generalizing k with
  | nil => rfl
  | cons row rest ih =>
    cases k with
    | zero =>
      simp only [List.getElem?_cons_zero, Option.some.injEq] at hk
      subst hk
      rfl
    | succ k =>
      simp only [List.getElem?_cons_succ] at hk
      have := ih k hk
      simp only [normalizeProviderHints, List.set_cons_succ, List.map_cons] at this ⊢
      rw [this]

theorem nil_not_mem_normalizeProviderHints (numNUMANodes : Nat)
    (hints : List (List TopologyHint)) : [] ∉ normalizeProviderHints numNUMANodes hints := by
  intro h
  simp only [normalizeProviderHints, List.mem_map] at h
  obtain ⟨row, _, hrow⟩ := h
  cases row with
  | nil => cases hrow
  | cons x xs => cases hrow

/-! ## The enumeration over memory: what is written -/

theorem Memory.SameExcept.refl {α : Type} (W : Nat → Nat → Prop) (m : Memory α) :
    Memory.SameExcept W m m :=
  ⟨rfl, fun _ cells h => ⟨cells, h, rfl, fun _ _ => rfl⟩⟩

theorem Memory.SameExcept.trans {α : Type} {W₁ W₂ W : Nat → Nat → Prop} {m m₁ m₂ : Memory α}
    (h₁ : Memory.SameExcept W₁ m m₁) (h₂ : Memory.SameExcept W₂ m₁ m₂)
    (hW : ∀ a k, a < m.hintArrays.length → ¬ W a k → ¬ W₁ a k ∧ ¬ W₂ a k) :
    Memory.SameExcept W m m₂ := by
  refine ⟨h₂.1.trans h₁.1, ?_⟩
  intro a cells hcells
  obtain ⟨c₁, hc₁, hl₁, he₁⟩ := h₁.2 a cells hcells
  obtain ⟨c₂, hc₂, hl₂, he₂⟩ := h₂.2 a c₁ hc₁
  refine ⟨c₂, hc₂, hl₂.trans hl₁, ?_⟩
  intro k hk
  have ha : a < m.hintArrays.length := by
    rcases Nat.lt_or_ge a m.hintArrays.length with h | h
    · exact h
    · rw [List.getElem?_eq_none h] at hcells; cases hcells
  obtain ⟨n₁, n₂⟩ := hW a k ha hk
  rw [he₂ k n₂, he₁ k n₁]

theorem Memory.SameExcept.mono {α : Type} {W₁ W : Nat → Nat → Prop} {m m₁ : Memory α}
    (h₁ : Memory.SameExcept W₁ m m₁)
    (hW : ∀ a k, a < m.hintArrays.length → ¬ W a k → ¬ W₁ a k) :
    Memory.SameExcept W m m₁ :=
  h₁.trans (Memory.SameExcept.refl (fun _ _ => False) m₁)
    (fun a k ha hk => ⟨hW a k ha hk, fun h => h⟩)

theorem Memory.SameExcept.length_hintCells {α : Type} {W : Nat → Nat → Prop} {m m' : Memory α}
    (h : Memory.SameExcept W m m') (a : Nat) :
    (m.hintCells a).length ≤ (m'.hintCells a).length := by
  unfold Memory.hintCells
  cases hc : m.hintArrays[a]? with
  | none => simp
  | some cells =>
    obtain ⟨c', hc', hl, _⟩ := h.2 a cells hc
    simp [hc', hl]

theorem Memory.SameExcept.length_le {α : Type} {W : Nat → Nat → Prop} {m m' : Memory α}
    (h : Memory.SameExcept W m m') : m.hintArrays.length ≤ m'.hintArrays.length := by
  by_contra hlt
  have hlt : m'.hintArrays.length < m.hintArrays.length := by omega
  obtain ⟨c', hc', _, _⟩ := h.2 _ _ (List.getElem?_eq_getElem hlt)
  rw [List.getElem?_eq_none (Nat.le_refl _)] at hc'
  cases hc'

theorem Memory.SameExcept.headers {α : Type} {W : Nat → Nat → Prop} {m m' : Memory α}
    (h : Memory.SameExcept W m m') (s : Slice) : m'.headers s = m.headers s := by
  simp [Memory.headers, Memory.headerCells, h.1]

theorem Memory.SameExcept.readHeader {α : Type} {W : Nat → Nat → Prop} {m m' : Memory α}
    (h : Memory.SameExcept W m m') (s : Slice) (i : Nat) :
    m'.readHeader s i = m.readHeader s i := by
  simp [Memory.readHeader, Memory.headerCells, h.1]

theorem Memory.WellFormed.preserved {α : Type} {W : Nat → Nat → Prop} {m m' : Memory α}
    {s : Slice} (hwf : m.WellFormed s) (h : Memory.SameExcept W m m') : m'.WellFormed s := by
  refine ⟨?_, ?_⟩
  · have := hwf.1
    simpa [Memory.headerCells, h.1] using this
  · intro row hrow
    rw [h.headers] at hrow
    exact Nat.le_trans (hwf.2 row hrow) (h.length_hintCells _)

theorem Memory.ValidAccum.stillValid {α : Type} {W : Nat → Nat → Prop} {m m' : Memory α}
    {s : Slice} (hv : m.ValidAccum s) (h : Memory.SameExcept W m m') : m'.ValidAccum s := by
  refine ⟨hv.1, ?_⟩
  rcases hv.2 with h0 | hc
  · exact Or.inl h0
  · exact Or.inr (Nat.le_trans hc (h.length_hintCells _))

theorem Memory.readHeader_ok {α : Type} {m : Memory α} {s : Slice} (hwf : m.WellFormed s)
    {i : Nat} (hi : i < s.len) :
    ∃ row, m.readHeader s i = .ok row ∧ row ∈ m.headers s := by
  have hlt : s.offset + i < (m.headerCells s.array).length := by have := hwf.1; omega
  refine ⟨(m.headerCells s.array)[s.offset + i], ?_, ?_⟩
  · simp [Memory.readHeader, hi, List.getElem?_eq_getElem hlt]
  · unfold Memory.headers
    rw [List.mem_iff_getElem?]
    refine ⟨i, ?_⟩
    rw [List.getElem?_take_of_lt hi, List.getElem?_drop, List.getElem?_eq_getElem hlt]

theorem Memory.readHint_ok {α : Type} {m : Memory α} {row : Slice}
    (hrow : row.offset + row.len ≤ (m.hintCells row.array).length) {j : Nat} (hj : j < row.len) :
    ∃ hint, m.readHint row j = .ok hint := by
  have hlt : row.offset + j < (m.hintCells row.array).length := by omega
  exact ⟨(m.hintCells row.array)[row.offset + j], by
    simp [Memory.readHint, hj, List.getElem?_eq_getElem hlt]⟩


theorem Memory.length_contents {α : Type} {m : Memory α} {s : Slice} (hv : m.ValidAccum s)
    (hfull : ¬ s.len < s.cap) : (m.contents s).length = s.len := by
  have hle := hv.1
  simp only [Memory.contents, List.length_take, List.length_drop]
  rcases hv.2 with h0 | hc
  · omega
  · omega

theorem Memory.append_ok {α : Type} (zero : α) (extraCap : Nat → Nat → Nat) {m : Memory α}
    {s : Slice} (hv : m.ValidAccum s) (x : α) :
    ∃ s' m', m.append zero extraCap s x = .ok (s', m') ∧
      Memory.SameExcept s.spare m m' ∧ m'.ValidAccum s' ∧
      ∀ a k, a < m.hintArrays.length → s'.spare a k → s.spare a k := by
  by_cases hroom : s.len < s.cap
  · have hcap : s.offset + s.cap ≤ (m.hintCells s.array).length := by
      rcases hv.2 with h0 | hc
      · omega
      · exact hc
    have hlt : s.offset + s.len < (m.hintCells s.array).length := by omega
    have harr : s.array < m.hintArrays.length := by
      by_contra hge
      have : m.hintCells s.array = [] := by
        simp [Memory.hintCells, List.getElem?_eq_none (Nat.le_of_not_lt hge)]
      rw [this] at hlt
      simp at hlt
    have hcells : m.hintCells s.array = m.hintArrays[s.array] := by
      simp [Memory.hintCells, List.getElem?_eq_getElem harr]
    refine ⟨{ s with len := s.len + 1 },
      { m with hintArrays :=
          m.hintArrays.set s.array ((m.hintCells s.array).set (s.offset + s.len) x) },
      by simp only [Memory.append, hroom, hlt, if_true], ?_, ?_, ?_⟩
    · refine ⟨rfl, ?_⟩
      intro a cells ha
      by_cases heq : a = s.array
      · subst heq
        have hc : cells = m.hintCells s.array := by
          simp [Memory.hintCells, ha]
        refine ⟨(m.hintCells s.array).set (s.offset + s.len) x, ?_, by simp [hc], ?_⟩
        · simp [List.getElem?_set, harr]
        · intro k hk
          have hne : s.offset + s.len ≠ k := by
            intro hkeq
            exact hk ⟨rfl, by omega, by omega⟩
          rw [List.getElem?_set_ne hne, hc]
      · refine ⟨cells, ?_, rfl, fun _ _ => rfl⟩
        simp only
        rw [List.getElem?_set_ne (Ne.symm heq)]
        exact ha
    · refine ⟨by simp only; omega, Or.inr ?_⟩
      simp only [Memory.hintCells, List.getElem?_set, harr, if_true]
      simp only [Option.getD_some, List.length_set]
      exact hcap
    · intro a k _ h
      exact ⟨h.1, by have := h.2.1; simp only at this; omega, h.2.2⟩
  · have hlen := Memory.length_contents hv hroom
    refine ⟨{ array := m.hintArrays.length, offset := 0, len := s.len + 1,
              cap := s.len + 1 + extraCap s.cap (s.len + 1) },
      { m with hintArrays :=
          m.hintArrays ++ [m.contents s ++ x :: List.replicate (extraCap s.cap (s.len + 1)) zero] },
      by simp only [Memory.append, hroom, if_false], ?_, ?_, ?_⟩
    · refine ⟨rfl, ?_⟩
      intro a cells ha
      refine ⟨cells, ?_, rfl, fun _ _ => rfl⟩
      have halt : a < m.hintArrays.length := by
        rcases Nat.lt_or_ge a m.hintArrays.length with h | h
        · exact h
        · rw [List.getElem?_eq_none h] at ha; cases ha
      simp only
      rw [List.getElem?_append_left halt]
      exact ha
    · refine ⟨by simp only; omega, Or.inr ?_⟩
      simp only [Memory.hintCells, List.getElem?_append_right (Nat.le_refl _), Nat.sub_self,
        List.getElem?_cons_zero, Option.getD_some, List.length_append, List.length_cons,
        List.length_replicate, hlen]
      omega
    · intro a k ha h
      have := h.1
      simp only at this
      omega


theorem foldlM_invariant {ε β ι : Type} (Inv : β → Prop) (f : β → ι → Except ε β)
    (l : List ι) (hstep : ∀ b j, j ∈ l → Inv b → ∃ b', f b j = .ok b' ∧ Inv b')
    (b : β) (hb : Inv b) : ∃ b', l.foldlM f b = .ok b' ∧ Inv b' := by
  induction l generalizing b with
  | nil => exact ⟨b, rfl, hb⟩
  | cons j l ih =>
    obtain ⟨b₁, hf, hb₁⟩ := hstep b j (List.mem_cons_self _ _) hb
    obtain ⟨b₂, hfold, hb₂⟩ := ih (fun b x hx => hstep b x (List.mem_cons_of_mem _ hx)) b₁ hb₁
    refine ⟨b₂, ?_, hb₂⟩
    rw [List.foldlM_cons, hf]
    exact hfold

theorem InMemory.iterate_frame {σ α : Type} (zero : α) (extraCap : Nat → Nat → Nat)
    (outer : Slice) (callback : σ → Memory α → Slice → σ × Memory α) (P : Nat → Nat → Prop)
    (hcb : ∀ s m permutation, Memory.SameExcept P m (callback s m permutation).2) :
    ∀ (fuel i : Nat) (accum : Slice) (r : InMemory.Run σ α),
      i ≤ outer.len → outer.len - i < fuel →
      r.memory.WellFormed outer → r.memory.ValidAccum accum →
      ∃ r', InMemory.iterate zero extraCap outer callback fuel i accum r = .ok r' ∧
        Memory.SameExcept (fun a k => P a k ∨ accum.spare a k) r.memory r'.memory := by
  intro fuel
  induction fuel with
  | zero => intro i accum r _ hf; omega
  | succ fuel ih =>
    intro i accum r hi hf hwf hv
    rw [InMemory.iterate]
    by_cases hiN : i = outer.len
    · simp only [hiN, if_true]
      exact ⟨_, rfl, (hcb _ _ _).mono (fun a k _ hn hP => hn (Or.inl hP))⟩
    · have hlt : i < outer.len := by omega
      obtain ⟨row, hread, hrow⟩ := Memory.readHeader_ok hwf hlt
      simp only [hiN, if_false, hread, bind, Except.bind]
      refine foldlM_invariant
        (fun r₁ : InMemory.Run σ α =>
          Memory.SameExcept (fun a k => P a k ∨ accum.spare a k) r.memory r₁.memory)
        _ _ ?_ _ (Memory.SameExcept.refl _ _)
      intro r₁ j hj hinv
      have hj : j < row.len := List.mem_range.1 hj
      have hwf₁ : r₁.memory.WellFormed outer := hwf.preserved hinv
      have hv₁ : r₁.memory.ValidAccum accum := hv.stillValid hinv
      have hread₁ : r₁.memory.readHeader outer i = .ok row := by
        rw [hinv.readHeader]; exact hread
      have hrow₁ : row ∈ r₁.memory.headers outer := by rw [hinv.headers]; exact hrow
      obtain ⟨hint, hhint⟩ := Memory.readHint_ok (hwf₁.2 row hrow₁) hj
      obtain ⟨accum', m', happ, hsame, hv', hspare⟩ :=
        Memory.append_ok zero extraCap hv₁ hint
      simp only [hread₁, hhint, happ]
      obtain ⟨r₂, hrec, hsame₂⟩ := ih (i + 1) accum' { r₁ with memory := m' }
        (by omega) (by omega) (hwf₁.preserved hsame) hv'
      refine ⟨r₂, hrec, ?_⟩
      have hstep : Memory.SameExcept (fun a k => P a k ∨ accum.spare a k)
          r₁.memory r₂.memory := by
        refine hsame.trans hsame₂ ?_
        intro a k ha hn
        refine ⟨fun h => hn (Or.inr h), ?_⟩
        rintro (h | h)
        · exact hn (Or.inl h)
        · exact hn (Or.inr (hspare a k ha h))
      exact hinv.trans hstep (fun a k _ hn => ⟨hn, hn⟩)

theorem Memory.SameExcept.getElem?_eq {α : Type} {W : Nat → Nat → Prop} {m m' : Memory α}
    (h : Memory.SameExcept W m m') (hW : ∀ a k, a < m.hintArrays.length → ¬ W a k)
    (a : Nat) (ha : a < m.hintArrays.length) : m'.hintArrays[a]? = m.hintArrays[a]? := by
  obtain ⟨cells', hc', _, he⟩ := h.2 a _ (List.getElem?_eq_getElem ha)
  rw [hc', List.getElem?_eq_getElem ha]
  congr 1
  exact List.ext_getElem? (fun k => he k (hW a k ha))

theorem Memory.SameExcept.take_eq {α : Type} {W : Nat → Nat → Prop} {m m' : Memory α}
    (h : Memory.SameExcept W m m') (hW : ∀ a k, a < m.hintArrays.length → ¬ W a k) :
    m'.hintArrays.take m.hintArrays.length = m.hintArrays := by
  apply List.ext_getElem?
  intro a
  by_cases ha : a < m.hintArrays.length
  · rw [List.getElem?_take_of_lt ha]
    exact h.getElem?_eq hW a ha
  · rw [List.getElem?_eq_none (by simp; omega), List.getElem?_eq_none (by omega)]

theorem Memory.SameExcept.hintLists_eq {α : Type} {W : Nat → Nat → Prop} {m m' : Memory α}
    (h : Memory.SameExcept W m m') (hW : ∀ a k, a < m.hintArrays.length → ¬ W a k)
    {s : Slice} (hwf : m.WellFormed s) : m'.hintLists s = m.hintLists s := by
  unfold Memory.hintLists
  rw [h.headers]
  apply List.map_congr_left
  intro row hrow
  have hvalid := hwf.2 row hrow
  unfold Memory.contents
  by_cases ha : row.array < m.hintArrays.length
  · have : m'.hintCells row.array = m.hintCells row.array := by
      simp only [Memory.hintCells, h.getElem?_eq hW _ ha]
    rw [this]
  · have hnil : m.hintCells row.array = [] := by
      simp [Memory.hintCells, List.getElem?_eq_none (Nat.le_of_not_lt ha)]
    rw [hnil] at hvalid ⊢
    simp only [List.length_nil, Nat.le_zero, Nat.add_eq_zero] at hvalid
    simp [hvalid.2]

/-! ## The enumeration over memory: what is computed -/

theorem Memory.getElem?_contents {α : Type} (m : Memory α) (s : Slice) (t : Nat) :
    (m.contents s)[t]? = if t < s.len then (m.hintCells s.array)[s.offset + t]? else none := by
  unfold Memory.contents
  by_cases ht : t < s.len
  · rw [List.getElem?_take_of_lt ht, List.getElem?_drop, if_pos ht]
  · rw [if_neg ht, List.getElem?_eq_none]
    simp only [List.length_take, List.length_drop]
    omega

theorem Memory.SameExcept.contents_eq {α : Type} {W : Nat → Nat → Prop} {m m' : Memory α}
    (h : Memory.SameExcept W m m') (s : Slice)
    (hW : ∀ k, s.offset ≤ k → k < s.offset + s.len → ¬ W s.array k)
    (hs : s.len = 0 ∨ s.array < m.hintArrays.length) : m'.contents s = m.contents s := by
  apply List.ext_getElem?
  intro t
  rw [Memory.getElem?_contents, Memory.getElem?_contents]
  by_cases ht : t < s.len
  · simp only [if_pos ht]
    have ha : s.array < m.hintArrays.length := by omega
    obtain ⟨cells', hc', _, he⟩ := h.2 _ _ (List.getElem?_eq_getElem ha)
    have h₁ : m'.hintCells s.array = cells' := by simp [Memory.hintCells, hc']
    have h₂ : m.hintCells s.array = m.hintArrays[s.array] := by
      simp [Memory.hintCells, List.getElem?_eq_getElem ha]
    rw [h₁, h₂]
    exact he _ (hW _ (by omega) (by omega))
  · simp only [if_neg ht]

theorem Memory.array_lt_of_cells {α : Type} {m : Memory α} {a n : Nat}
    (h : n ≤ (m.hintCells a).length) (hn : 0 < n) : a < m.hintArrays.length := by
  by_contra hge
  have : m.hintCells a = [] := by
    simp [Memory.hintCells, List.getElem?_eq_none (Nat.le_of_not_lt hge)]
  rw [this] at h
  simp at h
  omega

theorem Memory.ValidAccum.contents_kept {α : Type} {m m' : Memory α} {s : Slice}
    (hv : m.ValidAccum s) (h : Memory.SameExcept s.spare m m') :
    m'.contents s = m.contents s := by
  refine h.contents_eq s (fun k _ hk hsp => ?_) ?_
  · have := hsp.2.1; omega
  · rcases Nat.eq_zero_or_pos s.len with h0 | hpos
    · exact Or.inl h0
    · right
      have hle := hv.1
      rcases hv.2 with hc | hc
      · omega
      · exact Memory.array_lt_of_cells hc (by omega)

theorem Memory.hintLists_eq_of_apart {α : Type} {m m' : Memory α} {outer accum : Slice}
    (hwf : m.WellFormed outer) (hap : m.Apart outer accum)
    (h : Memory.SameExcept accum.spare m m') : m'.hintLists outer = m.hintLists outer := by
  unfold Memory.hintLists
  rw [h.headers]
  apply List.map_congr_left
  intro row hrow
  refine h.contents_eq row (hap row hrow) ?_
  rcases Nat.eq_zero_or_pos row.len with h0 | hpos
  · exact Or.inl h0
  · exact Or.inr (Memory.array_lt_of_cells (hwf.2 row hrow) (by omega))

theorem Memory.length_hintLists {α : Type} {m : Memory α} {outer : Slice}
    (hwf : m.WellFormed outer) : (m.hintLists outer).length = outer.len := by
  have := hwf.1
  simp only [Memory.hintLists, Memory.headers, List.length_map, List.length_take,
    List.length_drop]
  omega

theorem Memory.getElem?_hintLists {α : Type} {m : Memory α} {outer : Slice}
    {i : Nat} {row : Slice} (hread : m.readHeader outer i = .ok row) :
    (m.hintLists outer)[i]? = some (m.contents row) := by
  unfold Memory.readHeader at hread
  by_cases hi : i < outer.len
  · simp only [if_pos hi] at hread
    cases hc : (m.headerCells outer.array)[outer.offset + i]? with
    | none => simp [hc] at hread
    | some header =>
      simp only [hc, Except.ok.injEq] at hread
      subst hread
      simp only [Memory.hintLists, Memory.headers, List.getElem?_map,
        List.getElem?_take_of_lt hi, List.getElem?_drop, hc, Option.map_some']
  · simp [if_neg hi] at hread

theorem Memory.readHint_eq {α : Type} {m : Memory α} {row : Slice} {j : Nat} {hint : α}
    (h : m.readHint row j = .ok hint) : (m.contents row)[j]? = some hint := by
  unfold Memory.readHint at h
  by_cases hj : j < row.len
  · simp only [if_pos hj] at h
    rw [Memory.getElem?_contents, if_pos hj]
    cases hc : (m.hintCells row.array)[row.offset + j]? with
    | none => simp [hc] at h
    | some x =>
      simp only [hc, Except.ok.injEq] at h
      rw [h]
  · simp [if_neg hj] at h


theorem Memory.length_contents_of_le {α : Type} {m : Memory α} {s : Slice}
    (h : s.offset + s.len ≤ (m.hintCells s.array).length) : (m.contents s).length = s.len := by
  simp only [Memory.contents, List.length_take, List.length_drop]
  omega

theorem Memory.append_contents {α : Type} (zero : α) (extraCap : Nat → Nat → Nat)
    {m m' : Memory α} {s s' : Slice} (hv : m.ValidAccum s) (x : α)
    (h : m.append zero extraCap s x = .ok (s', m')) :
    m'.contents s' = m.contents s ++ [x] := by
  unfold Memory.append at h
  by_cases hroom : s.len < s.cap
  · have hcap : s.offset + s.cap ≤ (m.hintCells s.array).length := by
      rcases hv.2 with h0 | hc
      · omega
      · exact hc
    have hlt : s.offset + s.len < (m.hintCells s.array).length := by omega
    have harr : s.array < m.hintArrays.length := Memory.array_lt_of_cells hcap (by omega)
    simp only [if_pos hroom, if_pos hlt, Except.ok.injEq, Prod.mk.injEq] at h
    obtain ⟨rfl, rfl⟩ := h
    have hlen : (m.contents s).length = s.len := Memory.length_contents_of_le (by omega)
    have hcells : ∀ m₁ : Memory α,
        m₁.hintArrays
            = m.hintArrays.set s.array ((m.hintCells s.array).set (s.offset + s.len) x) →
          m₁.hintCells s.array = (m.hintCells s.array).set (s.offset + s.len) x := by
      intro m₁ hm₁
      simp [Memory.hintCells, hm₁, List.getElem?_set, harr]
    apply List.ext_getElem?
    intro t
    rw [Memory.getElem?_contents]
    dsimp only
    rw [hcells _ rfl]
    by_cases ht : t < s.len
    · rw [if_pos (show t < s.len + 1 by omega), List.getElem?_append_left (by omega),
        Memory.getElem?_contents, if_pos ht, List.getElem?_set_ne (by omega)]
    · by_cases ht' : t = s.len
      · subst ht'
        rw [if_pos (show s.len < s.len + 1 by omega),
          List.getElem?_append_right (by omega), hlen]
        simp [List.getElem?_set, hlt]
      · rw [if_neg (show ¬ t < s.len + 1 by omega), List.getElem?_eq_none]
        simp only [List.length_append, List.length_singleton]
        omega
  · have hlen := Memory.length_contents hv hroom
    simp only [if_neg hroom, Except.ok.injEq, Prod.mk.injEq] at h
    obtain ⟨rfl, rfl⟩ := h
    simp only [Memory.contents, Memory.hintCells,
      List.getElem?_append_right (Nat.le_refl _), Nat.sub_self, List.getElem?_cons_zero,
      Option.getD_some, List.drop_zero]
    have : (m.contents s ++ x :: List.replicate (extraCap s.cap (s.len + 1)) zero)
        = (m.contents s ++ [x]) ++ List.replicate (extraCap s.cap (s.len + 1)) zero := by simp
    simp only [Memory.contents, Memory.hintCells] at this hlen
    rw [this, List.take_append_of_le_length (by simp [hlen]), List.take_of_length_le (by simp [hlen])]

theorem Memory.append_apart {α : Type} (zero : α) (extraCap : Nat → Nat → Nat)
    {m m' : Memory α} {outer s s' : Slice} (hwf : m.WellFormed outer)
    (hap : m.Apart outer s) (x : α) (h : m.append zero extraCap s x = .ok (s', m')) :
    m'.Apart outer s' := by
  have hheaders : m'.headers outer = m.headers outer := by
    unfold Memory.append at h
    split at h
    · split at h
      · simp only [Except.ok.injEq, Prod.mk.injEq] at h
        obtain ⟨_, rfl⟩ := h
        rfl
      · cases h
    · simp only [Except.ok.injEq, Prod.mk.injEq] at h
      obtain ⟨_, rfl⟩ := h
      rfl
  intro row hrow k hk₁ hk₂ hsp
  rw [hheaders] at hrow
  unfold Memory.append at h
  split at h
  · split at h
    · simp only [Except.ok.injEq, Prod.mk.injEq] at h
      obtain ⟨rfl, _⟩ := h
      exact hap row hrow k hk₁ hk₂ ⟨hsp.1, by have := hsp.2.1; simp only at this; omega, hsp.2.2⟩
    · cases h
  · simp only [Except.ok.injEq, Prod.mk.injEq] at h
    obtain ⟨rfl, _⟩ := h
    have harr : row.array < m.hintArrays.length :=
      Memory.array_lt_of_cells (hwf.2 row hrow) (by omega)
    have := hsp.1
    simp only at this
    omega

theorem foldlM_simulation {ε β γ ι : Type} (Inv : β → Prop) (abs : β → γ)
    (f : β → ι → Except ε β) (g : γ → ι → γ) (l : List ι)
    (hstep : ∀ b j, j ∈ l → Inv b → ∃ b', f b j = .ok b' ∧ Inv b' ∧ abs b' = g (abs b) j)
    (b : β) (hb : Inv b) :
    ∃ b', l.foldlM f b = .ok b' ∧ Inv b' ∧ abs b' = l.foldl g (abs b) := by
  induction l generalizing b with
  | nil => exact ⟨b, rfl, hb, rfl⟩
  | cons j l ih =>
    obtain ⟨b₁, hf, hb₁, ha₁⟩ := hstep b j (List.mem_cons_self _ _) hb
    obtain ⟨b₂, hfold, hb₂, ha₂⟩ :=
      ih (fun b x hx => hstep b x (List.mem_cons_of_mem _ hx)) b₁ hb₁
    refine ⟨b₂, ?_, hb₂, ?_⟩
    · rw [List.foldlM_cons, hf]
      exact hfold
    · rw [ha₂, ha₁, List.foldl_cons]

theorem foldl_rangeFrom_index {α β : Type} (k : β → Option α → β) :
    ∀ (rest pre : List α) (b : β),
      (List.range' pre.length rest.length).foldl (fun b j => k b (pre ++ rest)[j]?) b
        = rest.foldl (fun b h => k b (some h)) b := by
  intro rest
  induction rest with
  | nil => intro pre b; rfl
  | cons x xs ih =>
    intro pre b
    simp only [List.length_cons, List.range'_succ, List.foldl_cons]
    have hx : (pre ++ x :: xs)[pre.length]? = some x := by
      rw [List.getElem?_append_right (Nat.le_refl _)]; simp
    rw [hx]
    have := ih (pre ++ [x]) (k b (some x))
    simpa using this

theorem foldl_range_index {α β : Type} (k : β → Option α → β) (row : List α) (b : β) :
    (List.range row.length).foldl (fun b j => k b row[j]?) b
      = row.foldl (fun b h => k b (some h)) b := by
  have := foldl_rangeFrom_index k row [] b
  simpa [List.range_eq_range'] using this

theorem foldlM_simulation_post {ε β γ ι : Type} (Inv : β → Prop) (abs : β → γ)
    (f : β → ι → Except ε β) (g : γ → ι → γ) (l : List ι) (Q : β → Prop)
    (hstep : ∀ b j, j ∈ l → Inv b → ∃ b', f b j = .ok b' ∧ Inv b' ∧ abs b' = g (abs b) j)
    (b : β) (hb : Inv b) (hQ : ∀ b', Inv b' → abs b' = l.foldl g (abs b) → Q b') :
    ∃ b', l.foldlM f b = .ok b' ∧ Q b' := by
  obtain ⟨b', h₁, h₂, h₃⟩ := foldlM_simulation Inv abs f g l hstep b hb
  exact ⟨b', h₁, hQ b' h₂ h₃⟩

theorem InMemory.iterate_refines {σ α : Type} (zero : α) (extraCap : Nat → Nat → Nat)
    (outer : Slice) (callback : σ → List α → σ) :
    ∀ (fuel i : Nat) (accum : Slice) (r : InMemory.Run σ α),
      i ≤ outer.len → outer.len - i ≤ fuel →
      r.memory.WellFormed outer → r.memory.ValidAccum accum → r.memory.Apart outer accum →
      ∃ r', InMemory.iterate zero extraCap outer (InMemory.readOnly callback)
            (fuel + 1) i accum r = .ok r' ∧
        Memory.SameExcept accum.spare r.memory r'.memory ∧
        r'.forget =
          { state := (nestedLoops ((r.memory.hintLists outer).drop i)).foldl
              (fun s p => callback s (r.memory.contents accum ++ p)) r.state
            trace := r.trace ++
              traceFrom ((r.memory.hintLists outer).drop i) fuel i (r.memory.contents accum) } := by
  intro fuel
  induction fuel with
  | zero =>
    intro i accum r hi hf hwf hv hap
    have hiN : i = outer.len := by omega
    have hdrop : (r.memory.hintLists outer).drop i = [] := by
      rw [List.drop_eq_nil_iff]; rw [Memory.length_hintLists hwf]; omega
    rw [InMemory.iterate]
    simp only [hiN, if_true]
    refine ⟨_, rfl, Memory.SameExcept.refl _ _, ?_⟩
    rw [← hiN, hdrop]
    simp [InMemory.Run.forget, InMemory.readOnly, nestedLoops, traceFrom]
  | succ fuel ih =>
    intro i accum r hi hf hwf hv hap
    by_cases hiN : i = outer.len
    · have hdrop : (r.memory.hintLists outer).drop i = [] := by
        rw [List.drop_eq_nil_iff]; rw [Memory.length_hintLists hwf]; omega
      rw [InMemory.iterate]
      simp only [hiN, if_true]
      refine ⟨_, rfl, Memory.SameExcept.refl _ _, ?_⟩
      rw [← hiN, hdrop]
      simp [InMemory.Run.forget, InMemory.readOnly, nestedLoops, traceFrom]
    · have hlt : i < outer.len := by omega
      obtain ⟨row, hread, hrow⟩ := Memory.readHeader_ok hwf hlt
      have hrowvals := Memory.getElem?_hintLists hread
      have hltL : i < (r.memory.hintLists outer).length := by
        rw [Memory.length_hintLists hwf]; exact hlt
      have hdrop : (r.memory.hintLists outer).drop i
          = r.memory.contents row :: (r.memory.hintLists outer).drop (i + 1) := by
        rw [List.drop_eq_getElem_cons hltL]
        congr 1
        have := List.getElem?_eq_getElem hltL
        rw [hrowvals] at this
        exact (Option.some.inj this).symm
      have hrowlen : (r.memory.contents row).length = row.len :=
        Memory.length_contents_of_le (hwf.2 row hrow)
      rw [InMemory.iterate]
      simp only [hiN, if_false, hread, bind, Except.bind]
      refine foldlM_simulation_post
        (fun r₁ : InMemory.Run σ α => Memory.SameExcept accum.spare r.memory r₁.memory)
        InMemory.Run.forget _
        (fun (R : TopologyManager.Run σ α) j =>
          ((r.memory.contents row)[j]?).elim R fun h =>
            afterLoop callback ((r.memory.hintLists outer).drop (i + 1)) fuel i
              (r.memory.contents accum) R [h])
        (List.range row.len) _ ?_
        { state := r.state, memory := r.memory
          trace := r.trace ++ [Event.enter (fuel + 1) i (r.memory.contents accum)] }
        (Memory.SameExcept.refl _ _) ?_
      · intro r₁ j hj hinv
        have hj : j < row.len := List.mem_range.1 hj
        have hwf₁ : r₁.memory.WellFormed outer := hwf.preserved hinv
        have hv₁ : r₁.memory.ValidAccum accum := hv.stillValid hinv
        have hap₁ : r₁.memory.Apart outer accum := by
          intro row' hrow'; rw [hinv.headers] at hrow'; exact hap row' hrow'
        have hread₁ : r₁.memory.readHeader outer i = .ok row := by
          rw [hinv.readHeader]; exact hread
        have hrow₁ : row ∈ r₁.memory.headers outer := by rw [hinv.headers]; exact hrow
        have hlists₁ : r₁.memory.hintLists outer = r.memory.hintLists outer :=
          Memory.hintLists_eq_of_apart hwf hap hinv
        have hcrow : r₁.memory.contents row = r.memory.contents row := by
          have h₁ := Memory.getElem?_hintLists hread₁
          rw [hlists₁, hrowvals] at h₁
          exact (Option.some.inj h₁).symm
        obtain ⟨hint, hhint⟩ := Memory.readHint_ok (hwf₁.2 row hrow₁) hj
        have hval : (r.memory.contents row)[j]? = some hint := by
          rw [← hcrow]; exact Memory.readHint_eq hhint
        obtain ⟨accum', m', happ, hsame, hv', hspare⟩ :=
          Memory.append_ok zero extraCap hv₁ hint
        have hc' : m'.contents accum' = r.memory.contents accum ++ [hint] := by
          rw [Memory.append_contents zero extraCap hv₁ hint happ, hv.contents_kept hinv]
        have hlists' : m'.hintLists outer = r.memory.hintLists outer := by
          rw [Memory.hintLists_eq_of_apart hwf₁ hap₁ hsame, hlists₁]
        obtain ⟨r₂, hrec, hsame₂, habs₂⟩ := ih (i + 1) accum'
          { state := r₁.state, memory := m', trace := r₁.trace }
          (by omega) (by omega) (hwf₁.preserved hsame) hv'
          (Memory.append_apart zero extraCap hwf₁ hap₁ hint happ)
        refine ⟨r₂, ?_, ?_, ?_⟩
        · simp only [hread₁, hhint, happ]
          exact hrec
        · have hstep : Memory.SameExcept accum.spare r₁.memory r₂.memory := by
            refine hsame.trans hsame₂ ?_
            intro a k ha hn
            exact ⟨hn, fun h => hn (hspare a k ha h)⟩
          exact hinv.trans hstep (fun a k _ hn => ⟨hn, hn⟩)
        · rw [habs₂]
          dsimp only
          rw [hval, hc', hlists']
          simp [afterLoop, InMemory.Run.forget, List.foldl_map, Option.elim]
      · intro r' hinv' habs
        refine ⟨hinv', ?_⟩
        rw [habs, ← hrowlen]
        refine (foldl_range_index
          (fun (R : TopologyManager.Run σ α) (o : Option α) =>
            o.elim R fun h =>
              afterLoop callback ((r.memory.hintLists outer).drop (i + 1)) fuel i
                (r.memory.contents accum) R [h])
          (r.memory.contents row) _).trans ?_
        simp only [Option.elim]
        rw [foldl_afterLoop, hdrop]
        simp [afterLoop, InMemory.Run.forget, nestedLoops, traceFrom]


/-- The execution over memory with a callback that reads the permutation it is
handed computes what the execution over values computes on the value of the
input: the same callback state and the same ghost trace; and it writes no cell
that existed before. -/
theorem InMemory.run_refines {σ α : Type} (zero : α) (extraCap : Nat → Nat → Nat)
    (outer : Slice) (callback : σ → List α → σ) (s : σ) (m : Memory α)
    (hwf : m.WellFormed outer) (fuel : Nat) (hfuel : outer.len < fuel) :
    ∃ r, InMemory.iterateAllProviderTopologyHints zero extraCap fuel outer
        (InMemory.readOnly callback) s m = .ok r ∧
      TopologyManager.iterateAllProviderTopologyHints fuel (m.hintLists outer) callback s
        = .ok r.forget ∧
      Memory.SameExcept (fun _ _ => False) m r.memory := by
  obtain ⟨f, rfl⟩ : ∃ f, fuel = f + 1 := ⟨fuel - 1, by omega⟩
  have hempty : m.contents Slice.empty = [] := by simp [Memory.contents, Slice.empty]
  obtain ⟨r, hr, hsame, habs⟩ := InMemory.iterate_refines zero extraCap outer callback f 0
    Slice.empty { state := s, memory := m, trace := [] } (Nat.zero_le _) (by omega) hwf
    ⟨Nat.le_refl _, Or.inl rfl⟩
    (fun _ _ k _ _ hsp => by
      have h₁ := hsp.2.1
      have h₂ := hsp.2.2
      simp only [Slice.empty] at h₁ h₂
      omega)
  refine ⟨r, hr, ?_, ?_⟩
  · rw [run_eq _ callback s (f + 1) (by rw [Memory.length_hintLists hwf]; exact hfuel), habs]
    simp [hempty]
  · refine hsame.mono ?_
    intro a k _ _ hsp
    have h₁ := hsp.2.1
    have h₂ := hsp.2.2
    simp only [Slice.empty] at h₁ h₂
    omega

/-- The permutations are transient.  A callback that keeps the slices it is
handed and reads them after the enumeration finds some of them overwritten:
`append` stored a later hint in the spare capacity they share.  Here the
providers are `[1, 2]`, `[4]`, `[2, 3]`; the first component lists the
permutations at the time they are handed over, the second the elements of the
kept slices at the end. -/
theorem InMemory.retained_permutation_overwritten :
    (InMemory.iterateAllProviderTopologyHints 0 (fun oldCap _ => oldCap) 4
        { array := 0, offset := 0, len := 3, cap := 4 }
        (fun (kept : List Slice) m permutation => (kept ++ [permutation], m)) []
        InMemory.exampleMemory).toOption.map
          (fun r => (r.forget.passed, r.state.map r.memory.contents))
      = some ([[1, 4, 2], [1, 4, 3], [2, 4, 2], [2, 4, 3]],
              [[1, 4, 3], [1, 4, 3], [2, 4, 3], [2, 4, 3]]) := by
  decide

/-! ## Rearranging the providers -/

theorem nestedLoops_append_first {α : Type} (l₁ l₂ : List α) (rest : List (List α)) :
    nestedLoops ((l₁ ++ l₂) :: rest) = nestedLoops (l₁ :: rest) ++ nestedLoops (l₂ :: rest) := by
  simp only [nestedLoops, List.flatMap_append]

theorem nestedLoops_insertIdx {α : Type} (h : α) :
    ∀ (k : Nat) (rows : List (List α)), k ≤ rows.length →
      nestedLoops (rows.insertIdx k [h]) = (nestedLoops rows).map fun p => p.insertIdx k h := by
  intro k
  induction k with
  | zero =>
    intro rows _
    simp [nestedLoops, List.insertIdx_zero]
  | succ k ih =>
    intro rows hk
    cases rows with
    | nil => simp at hk
    | cons row rest =>
      simp only [List.length_cons, Nat.add_le_add_iff_right] at hk
      rw [List.insertIdx_succ_cons]
      simp only [nestedLoops]
      rw [ih rest hk, List.map_flatMap]
      congr 1
      funext x
      rw [List.map_map, List.map_map]
      apply List.map_congr_left
      intro p _
      simp only [Function.comp, List.insertIdx_succ_cons]

theorem swapAdjacent_cons_succ {α : Type} (k : Nat) (a : α) (rest : List α) :
    swapAdjacent (k + 1) (a :: rest) = a :: swapAdjacent k rest := by
  cases rest <;> cases k <;> rfl

theorem nestedLoops_swap_head {α : Type} (a b : List α) (rest : List (List α)) :
    (nestedLoops (b :: a :: rest)).Perm ((nestedLoops (a :: b :: rest)).map (swapAdjacent 0)) := by
  simp only [nestedLoops, List.map_flatMap, List.map_map]
  have hfun : ∀ x y : α,
      (swapAdjacent 0 ∘ (fun p => x :: p) ∘ fun p => y :: p)
        = ((fun p : List α => y :: p) ∘ fun p => x :: p) := by
    intro x y
    funext p
    rfl
  simp only [hfun]
  rw [← Multiset.coe_eq_coe]
  simp only [← Multiset.coe_bind]
  exact Multiset.bind_bind _ _

theorem nestedLoops_swapAdjacent {α : Type} :
    ∀ (k : Nat) (rows : List (List α)), k + 1 < rows.length →
      (nestedLoops (swapAdjacent k rows)).Perm ((nestedLoops rows).map (swapAdjacent k)) := by
  intro k
  induction k with
  | zero =>
    intro rows hk
    match rows, hk with
    | a :: b :: rest, _ => exact nestedLoops_swap_head a b rest
  | succ k ih =>
    intro rows hk
    cases rows with
    | nil => simp at hk
    | cons row rest =>
      simp only [List.length_cons, Nat.add_lt_add_iff_right] at hk
      rw [swapAdjacent_cons_succ]
      simp only [nestedLoops, List.map_flatMap, List.map_map]
      apply List.Perm.flatMap_left
      intro x _
      have := (ih rest hk).map (fun p => x :: p)
      refine this.trans ?_
      rw [List.map_map]
      apply List.Perm.of_eq
      apply List.map_congr_left
      intro p _
      simp [Function.comp, swapAdjacent_cons_succ]

/-! ## The hint merger -/

theorem length_normalizeProviderHints (n : Nat) (hints : List (List TopologyHint)) :
    (normalizeProviderHints n hints).length = hints.length := by
  simp [normalizeProviderHints]

theorem foldl_merge_affinity (init : TopologyHint) (permutation : List TopologyHint) (x : Nat) :
    x ∈ (permutation.foldl
        (fun merged hint =>
          ({ affinity := merged.affinity ∩ hint.affinity
             preferred := merged.preferred && hint.preferred } : TopologyHint)) init).affinity
      ↔ x ∈ init.affinity ∧ ∀ h ∈ permutation, x ∈ h.affinity := by
  induction permutation generalizing init with
  | nil => simp
  | cons h rest ih =>
    rw [List.foldl_cons, ih]
    simp only [Finset.mem_inter, List.mem_cons, forall_eq_or_imp]
    tauto

theorem foldl_merge_preferred (init : TopologyHint) (permutation : List TopologyHint) :
    (permutation.foldl
        (fun merged hint =>
          ({ affinity := merged.affinity ∩ hint.affinity
             preferred := merged.preferred && hint.preferred } : TopologyHint)) init).preferred
        = true
      ↔ init.preferred = true ∧ ∀ h ∈ permutation, h.preferred = true := by
  induction permutation generalizing init with
  | nil => simp
  | cons h rest ih =>
    rw [List.foldl_cons, ih]
    simp only [Bool.and_eq_true, List.mem_cons, forall_eq_or_imp]
    tauto

theorem mem_affinity_mergePermutation (n : Nat) (permutation : List TopologyHint) (x : Nat) :
    x ∈ (mergePermutation n permutation).affinity
      ↔ x < n ∧ ∀ h ∈ permutation, x ∈ h.affinity := by
  unfold mergePermutation
  rw [foldl_merge_affinity]
  simp [unconstrainedHint]

theorem preferred_mergePermutation (n : Nat) (permutation : List TopologyHint) :
    (mergePermutation n permutation).preferred = true
      ↔ ∀ h ∈ permutation, h.preferred = true := by
  unfold mergePermutation
  rw [foldl_merge_preferred]
  simp [unconstrainedHint]

theorem mergeHints_eq (fuel n : Nat) (keep : TopologyHint → Bool)
    (hints : List (List TopologyHint)) (hfuel : hints.length < fuel) :
    ∃ r, iterateAllProviderTopologyHints fuel (normalizeProviderHints n hints)
        (mergeCallback n keep) { best := initialBest, survived := false } = .ok r ∧
      mergeHints fuel n keep hints = .ok r.state ∧
      r.passed = nestedLoops (normalizeProviderHints n hints) ∧
      r.state = (nestedLoops (normalizeProviderHints n hints)).foldl (mergeCallback n keep)
        { best := initialBest, survived := false } := by
  obtain ⟨r, hr, hp, hs⟩ := passed_run (normalizeProviderHints n hints) (mergeCallback n keep)
    { best := initialBest, survived := false } fuel
    (by rw [length_normalizeProviderHints]; exact hfuel)
  refine ⟨r, hr, ?_, hp, hs⟩
  simp only [mergeHints, hr]

/-! ## Index safety and the calls of `iterate` -/

theorem length_swapAdjacent {α : Type} : ∀ (k : Nat) (l : List α),
    (swapAdjacent k l).length = l.length := by
  intro k
  induction k with
  | zero =>
    intro l
    match l with
    | [] => rfl
    | [_] => rfl
    | _ :: _ :: _ => rfl
  | succ k ih =>
    intro l
    cases l with
    | nil => rfl
    | cons a rest => rw [swapAdjacent_cons_succ]; simp [ih rest]

theorem foldlM_ne_error {ε β ι : Type} (e : ε) (f : β → ι → Except ε β) (l : List ι)
    (hstep : ∀ b j, j ∈ l → f b j ≠ .error e) (b : β) : l.foldlM f b ≠ .error e := by
  induction l generalizing b with
  | nil => intro h; cases h
  | cons j l ih =>
    rw [List.foldlM_cons]
    cases hf : f b j with
    | error e' =>
      intro h
      have : e' = e := by
        simp only [bind, Except.bind] at h
        cases h
        rfl
      subst this
      exact hstep b j (List.mem_cons_self _ _) hf
    | ok b' =>
      exact ih (fun b x hx => hstep b x (List.mem_cons_of_mem _ hx)) b'

theorem iterate_ne_indexOutOfRange {σ α : Type} (hints : List (List α))
    (callback : σ → List α → σ) :
    ∀ (fuel i : Nat) (accum : List α) (r : Run σ α), i ≤ hints.length →
      iterate hints callback fuel i accum r ≠ .error .indexOutOfRange := by
  intro fuel
  induction fuel with
  | zero => intro i accum r _ h; cases h
  | succ fuel ih =>
    intro i accum r hi
    rw [iterate]
    by_cases hiN : i = hints.length
    · simp only [hiN, if_true]
      intro h; cases h
    · have hlt : i < hints.length := by omega
      have hrow : hints[i]? = some hints[i] := List.getElem?_eq_getElem hlt
      simp only [hiN, if_false, hrow, Option.some_bind]
      apply foldlM_ne_error
      intro r' j hj
      have hj : j < hints[i].length := List.mem_range.1 hj
      simp only [List.getElem?_eq_getElem hj]
      exact ih (i + 1) _ r' (by omega)

theorem callsAt_traceFrom_lt {α : Type} (rows : List (List α)) :
    ∀ (b i : Nat) (accum : List α) (k : Nat), k < i →
      callsAt k (entered (traceFrom rows b i accum)) = [] := by
  induction rows with
  | nil =>
    intro b i accum k hk
    simp [callsAt, entered, traceFrom]
    omega
  | cons row rest ih =>
    intro b i accum k hk
    have hne : ¬ i = k := by omega
    simp only [traceFrom, entered, callsAt, List.filterMap_cons, List.filterMap_flatMap, hne,
      if_false]
    rw [List.flatMap_eq_nil_iff]
    intro h _
    exact ih (b - 1) (i + 1) (accum ++ [h]) k (by omega)

theorem callsAt_traceFrom {α : Type} (rows : List (List α)) :
    ∀ (b i : Nat) (accum : List α) (d : Nat),
      callsAt (i + d) (entered (traceFrom rows b i accum))
        = if d ≤ rows.length then (nestedLoops (rows.take d)).map fun p => accum ++ p
          else [] := by
  induction rows with
  | nil =>
    intro b i accum d
    cases d with
    | zero => simp [callsAt, entered, traceFrom, nestedLoops]
    | succ d => simp [callsAt, entered, traceFrom]
  | cons row rest ih =>
    intro b i accum d
    cases d with
    | zero =>
      have hchildren : (row.flatMap fun h =>
          callsAt i (entered (traceFrom rest (b - 1) (i + 1) (accum ++ [h])))) = [] := by
        rw [List.flatMap_eq_nil_iff]
        intro h _
        exact callsAt_traceFrom_lt rest _ _ _ _ (by omega)
      simp only [callsAt, entered] at hchildren
      simp only [traceFrom, entered, callsAt, List.filterMap_cons, List.filterMap_flatMap,
        Nat.add_zero, if_true, hchildren]
      simp [nestedLoops]
    | succ d =>
      have hne : ¬ i = i + (d + 1) := by omega
      have hstep : ∀ h : α,
          callsAt (i + (d + 1)) (entered (traceFrom rest (b - 1) (i + 1) (accum ++ [h])))
            = if d ≤ rest.length then
                (nestedLoops (rest.take d)).map fun p => (accum ++ [h]) ++ p
              else [] := by
        intro h
        have := ih (b - 1) (i + 1) (accum ++ [h]) d
        rw [show i + 1 + d = i + (d + 1) by omega] at this
        exact this
      simp only [callsAt, entered] at hstep
      simp only [traceFrom, entered, callsAt, List.filterMap_cons, List.filterMap_flatMap, hne,
        if_false, hstep, List.length_cons, Nat.add_le_add_iff_right, List.take_succ_cons,
        nestedLoops]
      by_cases hd : d ≤ rest.length
      · simp only [hd, if_true, List.map_flatMap, List.map_map]
        congr 1
        funext h
        apply List.map_congr_left
        intro p _
        simp
      · simp only [hd, if_false]
        rw [List.flatMap_eq_nil_iff]
        intro _ _
        rfl

theorem mem_callsAt_of_enter {α : Type} (t : List (Event α)) (b i : Nat) (accum : List α)
    (h : Event.enter b i accum ∈ t) : accum ∈ callsAt i (entered t) := by
  simp only [callsAt, entered, List.mem_filterMap]
  exact ⟨(i, accum), ⟨_, h, rfl⟩, by simp⟩

theorem select_of_mem_nestedLoops {α : Type} (rows : List (List α)) (p : List α)
    (h : p ∈ nestedLoops rows) :
    p.length = rows.length ∧ ∃ js, ValidTuple rows js ∧ select rows js = some p := by
  refine ⟨((mem_nestedLoops rows p).1 h).length_eq, ?_⟩
  have hmem : some p ∈ (nestedLoops rows).map some := List.mem_map.2 ⟨p, h, rfl⟩
  rw [← select_indexTuples] at hmem
  obtain ⟨js, hjs, hsel⟩ := List.mem_map.1 hmem
  exact ⟨js, (mem_indexTuples rows js).1 hjs, hsel⟩

theorem enter_traceFrom_selected {α : Type} (hints : List (List α)) (budget b i : Nat)
    (accum : List α) (h : Event.enter b i accum ∈ traceFrom hints budget 0 []) :
    i ≤ hints.length ∧ accum.length = i ∧
      ∃ js, ValidTuple (hints.take i) js ∧ select (hints.take i) js = some accum := by
  obtain ⟨_, hi, _, _, _⟩ := enter_mem_traceFrom hints budget 0 [] b i accum h
  have hi : i ≤ hints.length := by omega
  have hmem := mem_callsAt_of_enter _ b i accum h
  have hcalls := callsAt_traceFrom hints budget 0 [] i
  rw [Nat.zero_add, if_pos hi] at hcalls
  rw [hcalls] at hmem
  simp only [List.nil_append, List.map_id'] at hmem
  obtain ⟨hlen, hsel⟩ := select_of_mem_nestedLoops _ _ hmem
  refine ⟨hi, ?_, hsel⟩
  rw [hlen, List.length_take]
  omega

/-! ## The claims -/

/-- The enumeration over values, for a callback that is a function of the
elements the permutation has when it is handed over.  The callback is handed
exactly the permutations of the nested loops of the doc comment, in their
order: the ghost list of callback arguments is `nestedLoops allProviderHints`,
the callback's final state is the left fold of the callback over that list, and
that list is the image, position by position, of the valid index tuples listed
in strictly increasing lexicographic order (first provider's index most
significant).  A callback that keeps or writes the slice it is handed is not of
this kind; see `InMemory.retained_permutation_overwritten`. -/
theorem iterate_enumerates_nested_loops {σ α : Type} (allProviderHints : List (List α))
    (callback : σ → List α → σ) (s : σ) (fuel : Nat)
    (hfuel : allProviderHints.length < fuel) :
    ∃ r, iterateAllProviderTopologyHints fuel allProviderHints callback s = .ok r ∧
      r.passed = nestedLoops allProviderHints ∧
      r.state = (nestedLoops allProviderHints).foldl callback s ∧
      (nestedLoops allProviderHints).map some
        = (indexTuples allProviderHints).map (select allProviderHints) ∧
      (indexTuples allProviderHints).Pairwise (List.Lex (· < ·)) ∧
      ∀ js, js ∈ indexTuples allProviderHints ↔ ValidTuple allProviderHints js := by
  obtain ⟨r, hr, hp, hs⟩ := passed_run allProviderHints callback s fuel hfuel
  exact ⟨r, hr, hp, hs, (select_indexTuples _).symm, pairwise_lex_indexTuples _,
    mem_indexTuples _⟩

theorem iterate_enumerates_nested_loops_witness :
    [[10, 20], [30, 40, 50]].length < 3 ∧
    ∃ r, iterateAllProviderTopologyHints 3 [[10, 20], [30, 40, 50]]
        (fun (s : List Nat) p => s ++ p) [] = .ok r ∧
      r.passed = nestedLoops [[10, 20], [30, 40, 50]] ∧
      r.state = (nestedLoops [[10, 20], [30, 40, 50]]).foldl (fun (s : List Nat) p => s ++ p) [] ∧
      (nestedLoops [[10, 20], [30, 40, 50]]).map some
        = (indexTuples [[10, 20], [30, 40, 50]]).map (select [[10, 20], [30, 40, 50]]) ∧
      (indexTuples [[10, 20], [30, 40, 50]]).Pairwise (List.Lex (· < ·)) ∧
      ∀ js, js ∈ indexTuples [[10, 20], [30, 40, 50]] ↔ ValidTuple [[10, 20], [30, 40, 50]] js :=
  ⟨by decide, iterate_enumerates_nested_loops [[10, 20], [30, 40, 50]] _ [] 3 (by decide)⟩

/-- C2. The callback is invoked exactly `n₁ * n₂ * … * n_k` times, the product
of the lengths of the providers' hint lists (`1` for no provider). -/
theorem callback_invoked_product_times {σ α : Type} (allProviderHints : List (List α))
    (callback : σ → List α → σ) (s : σ) (fuel : Nat)
    (hfuel : allProviderHints.length < fuel) :
    ∃ r, iterateAllProviderTopologyHints fuel allProviderHints callback s = .ok r ∧
      r.passed.length = (allProviderHints.map List.length).prod := by
  obtain ⟨r, hr, hp, _⟩ := passed_run allProviderHints callback s fuel hfuel
  exact ⟨r, hr, by rw [hp, length_nestedLoops]⟩

theorem callback_invoked_product_times_witness :
    [[10, 20], [30, 40, 50]].length < 3 ∧
    ∃ r, iterateAllProviderTopologyHints 3 [[10, 20], [30, 40, 50]]
        (fun (s : Nat) _ => s + 1) 0 = .ok r ∧
      r.passed.length = ([[10, 20], [30, 40, 50]].map List.length).prod :=
  ⟨by decide, callback_invoked_product_times [[10, 20], [30, 40, 50]] _ 0 3 (by decide)⟩

/-- C3. Every permutation handed to the callback has exactly one hint per
provider, in provider order: its length is the number of providers and its
`k`-th element belongs to the `k`-th provider's hint list. -/
theorem permutation_one_hint_per_provider {σ α : Type} (allProviderHints : List (List α))
    (callback : σ → List α → σ) (s : σ) (fuel : Nat)
    (hfuel : allProviderHints.length < fuel) :
    ∃ r, iterateAllProviderTopologyHints fuel allProviderHints callback s = .ok r ∧
      ∀ p ∈ r.passed, p.length = allProviderHints.length ∧
        ∀ (k : Nat) (hp : k < p.length) (hk : k < allProviderHints.length),
          p[k] ∈ allProviderHints[k] := by
  obtain ⟨r, hr, hp, _⟩ := passed_run allProviderHints callback s fuel hfuel
  refine ⟨r, hr, ?_⟩
  intro p hmem
  rw [hp, mem_nestedLoops] at hmem
  obtain ⟨hlen, hget⟩ := List.forall₂_iff_get.1 hmem
  exact ⟨hlen, fun k h₁ h₂ => hget k h₁ h₂⟩

theorem permutation_one_hint_per_provider_witness :
    [[10, 20], [30, 40, 50]].length < 3 ∧
    ∃ r, iterateAllProviderTopologyHints 3 [[10, 20], [30, 40, 50]]
        (fun (s : Nat) _ => s + 1) 0 = .ok r ∧
      ∀ p ∈ r.passed, p.length = [[10, 20], [30, 40, 50]].length ∧
        ∀ (k : Nat) (hp : k < p.length) (hk : k < [[10, 20], [30, 40, 50]].length),
          p[k] ∈ [[10, 20], [30, 40, 50]][k] :=
  ⟨by decide, permutation_one_hint_per_provider [[10, 20], [30, 40, 50]] _ 0 3 (by decide)⟩

/-- C4. Every valid index tuple is visited exactly once.  The list of callback
arguments is, position by position, the image under selection of the list
`indexTuples allProviderHints`, which has no duplicate and whose members are
exactly the valid index tuples; hence the permutation selected by a valid tuple
is handed to the callback, and a permutation value is handed over as many times
as there are index tuples selecting it. -/
theorem every_index_tuple_exactly_once {σ α : Type} [DecidableEq α]
    (allProviderHints : List (List α)) (callback : σ → List α → σ) (s : σ) (fuel : Nat)
    (hfuel : allProviderHints.length < fuel) :
    ∃ r, iterateAllProviderTopologyHints fuel allProviderHints callback s = .ok r ∧
      r.passed.map some = (indexTuples allProviderHints).map (select allProviderHints) ∧
      (indexTuples allProviderHints).Nodup ∧
      (∀ js, js ∈ indexTuples allProviderHints ↔ ValidTuple allProviderHints js) ∧
      (∀ js, ValidTuple allProviderHints js →
        ∃ p, select allProviderHints js = some p ∧ p ∈ r.passed) ∧
      ∀ p, r.passed.countP (fun q => decide (q = p))
        = (indexTuples allProviderHints).countP
            (fun js => decide (select allProviderHints js = some p)) := by
  obtain ⟨r, hr, hp, _⟩ := passed_run allProviderHints callback s fuel hfuel
  have hmap : r.passed.map some
      = (indexTuples allProviderHints).map (select allProviderHints) := by
    rw [hp, select_indexTuples]
  refine ⟨r, hr, hmap, nodup_indexTuples _, mem_indexTuples _, ?_, ?_⟩
  · intro js hjs
    have hmem : js ∈ indexTuples allProviderHints := (mem_indexTuples _ _).2 hjs
    obtain ⟨p, hsel⟩ := select_of_validTuple _ _ hjs
    refine ⟨p, hsel, ?_⟩
    have : some p ∈ r.passed.map some := by
      rw [hmap]; exact List.mem_map.2 ⟨js, hmem, hsel⟩
    obtain ⟨q, hq, hqp⟩ := List.mem_map.1 this
    cases hqp
    exact hq
  · intro p
    have h₁ : r.passed.countP (fun q => decide (q = p))
        = (r.passed.map some).countP (fun o => decide (o = some p)) := by
      rw [List.countP_map]
      congr 1
      funext q
      simp [Function.comp]
    rw [h₁, hmap, List.countP_map]
    rfl

theorem every_index_tuple_exactly_once_witness :
    [[7, 7], [8, 9, 8]].length < 3 ∧
    ∃ r, iterateAllProviderTopologyHints 3 [[7, 7], [8, 9, 8]]
        (fun (s : Nat) _ => s + 1) 0 = .ok r ∧
      r.passed.map some = (indexTuples [[7, 7], [8, 9, 8]]).map (select [[7, 7], [8, 9, 8]]) ∧
      (indexTuples [[7, 7], [8, 9, 8]]).Nodup ∧
      (∀ js, js ∈ indexTuples [[7, 7], [8, 9, 8]] ↔ ValidTuple [[7, 7], [8, 9, 8]] js) ∧
      (∀ js, ValidTuple [[7, 7], [8, 9, 8]] js →
        ∃ p, select [[7, 7], [8, 9, 8]] js = some p ∧ p ∈ r.passed) ∧
      ∀ p, r.passed.countP (fun q => decide (q = p))
        = (indexTuples [[7, 7], [8, 9, 8]]).countP
            (fun js => decide (select [[7, 7], [8, 9, 8]] js = some p)) :=
  ⟨by decide, every_index_tuple_exactly_once [[7, 7], [8, 9, 8]] _ 0 3 (by decide)⟩

/-- C5. With no provider at all the callback is invoked exactly once, with the
empty permutation. -/
theorem no_provider_one_empty_permutation {σ α : Type} (callback : σ → List α → σ) (s : σ)
    (fuel : Nat) (hfuel : 0 < fuel) :
    ∃ r, iterateAllProviderTopologyHints fuel ([] : List (List α)) callback s = .ok r ∧
      r.passed = [[]] ∧ r.state = callback s [] := by
  obtain ⟨r, hr, hp, hs⟩ := passed_run ([] : List (List α)) callback s fuel hfuel
  exact ⟨r, hr, hp, hs⟩

theorem no_provider_one_empty_permutation_witness :
    0 < 1 ∧
    ∃ r, iterateAllProviderTopologyHints 1 ([] : List (List Nat))
        (fun (s : List (List Nat)) p => p :: s) [] = .ok r ∧
      r.passed = [[]] ∧ r.state = (fun (s : List (List Nat)) p => p :: s) [] [] :=
  ⟨by decide, no_provider_one_empty_permutation _ [] 1 (by decide)⟩

/-- C6. No permutation is produced (the callback is never invoked) if and only
if at least one provider's hint list is empty. -/
theorem no_permutation_iff_empty_hint_list {σ α : Type} (allProviderHints : List (List α))
    (callback : σ → List α → σ) (s : σ) (fuel : Nat)
    (hfuel : allProviderHints.length < fuel) :
    ∃ r, iterateAllProviderTopologyHints fuel allProviderHints callback s = .ok r ∧
      (r.passed = [] ↔ ∃ row ∈ allProviderHints, row = []) := by
  obtain ⟨r, hr, hp, _⟩ := passed_run allProviderHints callback s fuel hfuel
  refine ⟨r, hr, ?_⟩
  rw [hp, nestedLoops_eq_nil]
  simp

theorem no_permutation_iff_empty_hint_list_witness :
    [[10, 20], [], [30]].length < 4 ∧
    ∃ r, iterateAllProviderTopologyHints 4 [[10, 20], [], [30]]
        (fun (s : Nat) _ => s + 1) 0 = .ok r ∧
      (r.passed = [] ↔ ∃ row ∈ [[10, 20], [], [30]], row = []) :=
  ⟨by decide, no_permutation_iff_empty_hint_list [[10, 20], [], [30]] _ 0 4 (by decide)⟩

/-- C7, as the claim states it, fails: for the single provider with no hint the
enumerator hands nothing to the callback, while for the single provider
reporting the unconstrained hint it hands over one permutation. -/
theorem enumerator_does_not_normalize :
    ¬ ((iterateAllProviderTopologyHints 2 ([[]] : List (List TopologyHint))
          (fun (n : Nat) _ => n + 1) 0).toOption.map Run.passed
        = (iterateAllProviderTopologyHints 2 [[unconstrainedHint 2]]
          (fun (n : Nat) _ => n + 1) 0).toOption.map Run.passed) := by
  decide

/-- C7, amended.  The enumerator itself does not normalize: when some
provider's hint list is empty it invokes the callback never and leaves the
callback's state as it was.  Preceded by the normalization of §4.2, a provider
with zero hints behaves identically to one reporting the single unconstrained
hint: the two normalized inputs coincide, so the executions are equal, and the
enumeration of a normalized input is never empty. -/
theorem normalized_zero_hints_same_as_unconstrained (numNUMANodes : Nat)
    (allProviderHints : List (List TopologyHint)) (k : Nat)
    (hk : allProviderHints[k]? = some [])
    {σ : Type} (callback : σ → List TopologyHint → σ) (s : σ) (fuel : Nat)
    (hfuel : allProviderHints.length < fuel) :
    (∃ r, iterateAllProviderTopologyHints fuel allProviderHints callback s = .ok r ∧
        r.passed = [] ∧ r.state = s) ∧
    iterateAllProviderTopologyHints fuel
        (normalizeProviderHints numNUMANodes allProviderHints) callback s
      = iterateAllProviderTopologyHints fuel
        (normalizeProviderHints numNUMANodes
          (allProviderHints.set k [unconstrainedHint numNUMANodes])) callback s ∧
    ∃ r, iterateAllProviderTopologyHints fuel
        (normalizeProviderHints numNUMANodes allProviderHints) callback s = .ok r ∧
      r.passed ≠ [] := by
  have hmem : [] ∈ allProviderHints := List.getElem?_mem hk
  have hnil : nestedLoops allProviderHints = [] := (nestedLoops_eq_nil _).2 hmem
  refine ⟨?_, ?_, ?_⟩
  · obtain ⟨r, hr, hp, hs⟩ := passed_run allProviderHints callback s fuel hfuel
    exact ⟨r, hr, by rw [hp, hnil], by rw [hs, hnil]; rfl⟩
  · rw [normalizeProviderHints_set numNUMANodes allProviderHints k hk]
  · obtain ⟨r, hr, hp, _⟩ := passed_run (normalizeProviderHints numNUMANodes allProviderHints)
      callback s fuel (by simpa [normalizeProviderHints] using hfuel)
    refine ⟨r, hr, ?_⟩
    rw [hp]
    intro h
    exact nil_not_mem_normalizeProviderHints _ _ ((nestedLoops_eq_nil _).1 h)

theorem normalized_zero_hints_same_as_unconstrained_witness :
    [[⟨{0}, false⟩], ([] : List TopologyHint)][1]? = some [] ∧
    [[⟨{0}, false⟩], ([] : List TopologyHint)].length < 3 ∧
    ((∃ r, iterateAllProviderTopologyHints 3 [[⟨{0}, false⟩], ([] : List TopologyHint)]
          (fun (n : Nat) _ => n + 1) 0 = .ok r ∧ r.passed = [] ∧ r.state = 0) ∧
    iterateAllProviderTopologyHints 3
        (normalizeProviderHints 2 [[⟨{0}, false⟩], ([] : List TopologyHint)])
        (fun (n : Nat) _ => n + 1) 0
      = iterateAllProviderTopologyHints 3
        (normalizeProviderHints 2
          ([[⟨{0}, false⟩], ([] : List TopologyHint)].set 1 [unconstrainedHint 2]))
        (fun (n : Nat) _ => n + 1) 0 ∧
    ∃ r, iterateAllProviderTopologyHints 3
        (normalizeProviderHints 2 [[⟨{0}, false⟩], ([] : List TopologyHint)])
        (fun (n : Nat) _ => n + 1) 0 = .ok r ∧
      r.passed ≠ []) :=
  ⟨by decide, by decide,
    normalized_zero_hints_same_as_unconstrained 2 [[⟨{0}, false⟩], []] 1 (by decide)
      (fun (n : Nat) _ => n + 1) 0 3 (by decide)⟩

/-- C8. The enumeration terminates without a fault as soon as `N + 1` stack
frames are available, `N` being the number of providers.  The first entry into
`iterate` is `iterate(0, [])`; every entry `iterate(i, accum)` has `i ≤ N`, and
`i` equals the nesting depth of the entry (the frames in use, `fuel - budget`,
are `i + 1`), so each recursive call increases `i` by exactly one and at most
`N + 1` frames are ever in use.  The bound is reached when no hint list is
empty: with `N` frames or fewer the stack is exhausted. -/
theorem iterate_terminates_within_depth {σ α : Type} (allProviderHints : List (List α))
    (callback : σ → List α → σ) (s : σ) (fuel : Nat)
    (hfuel : allProviderHints.length < fuel) :
    (∃ r, iterateAllProviderTopologyHints fuel allProviderHints callback s = .ok r ∧
      r.trace.head? = some (.enter (fuel - 1) 0 []) ∧
      ∀ budget i accum, Event.enter budget i accum ∈ r.trace →
        i ≤ allProviderHints.length ∧ budget + (i + 1) = fuel ∧ accum.length = i) ∧
    ∀ small, small ≤ allProviderHints.length → [] ∉ allProviderHints →
      iterateAllProviderTopologyHints small allProviderHints callback s
        = .error .stackExhausted := by
  refine ⟨⟨_, run_eq allProviderHints callback s fuel hfuel, head_traceFrom _ _ _ _, ?_⟩, ?_⟩
  · intro budget i accum hmem
    obtain ⟨_, h2, h3, h4, _⟩ :=
      enter_mem_traceFrom allProviderHints (fuel - 1) 0 [] budget i accum hmem
    have := h3 (by omega)
    refine ⟨by omega, by omega, ?_⟩
    simpa using h4
  · intro small hsmall hne
    exact iterate_stack_exhausted allProviderHints callback hne small 0 [] _ (by omega)

theorem iterate_terminates_within_depth_witness :
    [[10, 20], [30, 40, 50]].length < 3 ∧
    ((∃ r, iterateAllProviderTopologyHints 3 [[10, 20], [30, 40, 50]]
        (fun (s : Nat) _ => s + 1) 0 = .ok r ∧
      r.trace.head? = some (.enter (3 - 1) 0 []) ∧
      ∀ budget i accum, Event.enter budget i accum ∈ r.trace →
        i ≤ [[10, 20], [30, 40, 50]].length ∧ budget + (i + 1) = 3 ∧ accum.length = i) ∧
    ∀ small, small ≤ [[10, 20], [30, 40, 50]].length → [] ∉ [[10, 20], [30, 40, 50]] →
      iterateAllProviderTopologyHints small [[10, 20], [30, 40, 50]]
        (fun (s : Nat) _ => s + 1) 0 = .error .stackExhausted) :=
  ⟨by decide, iterate_terminates_within_depth [[10, 20], [30, 40, 50]] _ 0 3 (by decide)⟩

/-- The enumeration over values, for callbacks that are functions of the
elements the permutation has when it is handed over: two executions on the same
input, with any two such callbacks (over any two state types), any two initial
states and any two sufficient stack budgets, hand over the same sequence of
permutations and make the same calls of `iterate`.  A callback that writes the
slice it is handed is not of this kind. -/
theorem permutations_independent_of_callback {σ₁ σ₂ α : Type}
    (allProviderHints : List (List α))
    (callback₁ : σ₁ → List α → σ₁) (callback₂ : σ₂ → List α → σ₂) (s₁ : σ₁) (s₂ : σ₂)
    (fuel₁ fuel₂ : Nat)
    (hfuel₁ : allProviderHints.length < fuel₁) (hfuel₂ : allProviderHints.length < fuel₂) :
    ∃ r₁ r₂, iterateAllProviderTopologyHints fuel₁ allProviderHints callback₁ s₁ = .ok r₁ ∧
      iterateAllProviderTopologyHints fuel₂ allProviderHints callback₂ s₂ = .ok r₂ ∧
      r₁.passed = r₂.passed ∧ r₁.calls = r₂.calls := by
  refine ⟨_, _, run_eq allProviderHints callback₁ s₁ fuel₁ hfuel₁,
    run_eq allProviderHints callback₂ s₂ fuel₂ hfuel₂, ?_, ?_⟩
  · simp [Run.passed, invoked_traceFrom]
  · exact entered_traceFrom_budget _ _ _ _ _

theorem permutations_independent_of_callback_witness :
    [[10, 20], [30, 40, 50]].length < 3 ∧ [[10, 20], [30, 40, 50]].length < 5 ∧
    ∃ r₁ r₂, iterateAllProviderTopologyHints 3 [[10, 20], [30, 40, 50]]
        (fun (s : Nat) _ => s + 1) 0 = .ok r₁ ∧
      iterateAllProviderTopologyHints 5 [[10, 20], [30, 40, 50]]
        (fun (s : List Nat) p => p ++ s) [1] = .ok r₂ ∧
      r₁.passed = r₂.passed ∧ r₁.calls = r₂.calls :=
  ⟨by decide, by decide,
    permutations_independent_of_callback [[10, 20], [30, 40, 50]] _ _ 0 [1] 3 5
      (by decide) (by decide)⟩

/-- C10. Over Go memory the enumeration treats its input as read-only.  For a
well-formed `allProviderHints` and a sufficient stack the execution returns,
and the memory it returns differs from the initial memory only by allocation
and by what the callback writes: the arrays of slice headers are the same, and
every cell of every array of hints that existed before holds what it held,
unless it lies in the set `P` of cells the callback may write.  When the
callback writes no cell that existed before, all arrays that existed before are
unchanged, and so is the value of `allProviderHints`. -/
theorem enumeration_leaves_input_unchanged {σ α : Type} (zero : α)
    (extraCap : Nat → Nat → Nat) (allProviderHints : Slice)
    (callback : σ → Memory α → Slice → σ × Memory α) (P : Nat → Nat → Prop)
    (hcallback : ∀ s m permutation, Memory.SameExcept P m (callback s m permutation).2)
    (s : σ) (m : Memory α) (hinput : m.WellFormed allProviderHints)
    (fuel : Nat) (hfuel : allProviderHints.len < fuel) :
    ∃ r, InMemory.iterateAllProviderTopologyHints zero extraCap fuel allProviderHints
        callback s m = .ok r ∧
      r.memory.headerArrays = m.headerArrays ∧
      (∀ a cells, m.hintArrays[a]? = some cells →
        ∃ cells', r.memory.hintArrays[a]? = some cells' ∧ cells'.length = cells.length ∧
          ∀ k, ¬ P a k → cells'[k]? = cells[k]?) ∧
      ((∀ a k, a < m.hintArrays.length → ¬ P a k) →
        r.memory.hintArrays.take m.hintArrays.length = m.hintArrays ∧
        r.memory.hintLists allProviderHints = m.hintLists allProviderHints) := by
  obtain ⟨r, hr, hsame⟩ := InMemory.iterate_frame zero extraCap allProviderHints callback P
    hcallback fuel 0 Slice.empty { state := s, memory := m, trace := [] }
    (Nat.zero_le _) (by omega) hinput ⟨Nat.le_refl _, Or.inl rfl⟩
  have hP : Memory.SameExcept P m r.memory := by
    refine hsame.mono ?_
    intro a k _ hn h
    rcases h with h | h
    · exact hn h
    · have h₁ := h.2.1
      have h₂ := h.2.2
      simp only [Slice.empty] at h₁ h₂
      omega
  exact ⟨r, hr, hP.1, hP.2, fun hW => ⟨hP.take_eq hW, hP.hintLists_eq hW hinput⟩⟩

theorem enumeration_leaves_input_unchanged_witness :
    (∀ (s : Nat) (m : Memory Nat) (permutation : Slice),
      Memory.SameExcept (fun (_ _ : Nat) => False) m
        (InMemory.readOnly (fun (n : Nat) p => n + p.sum) s m permutation).2) ∧
    InMemory.exampleMemory.WellFormed InMemory.exampleHints ∧
    InMemory.exampleHints.len < 5 ∧
    ∃ r, InMemory.iterateAllProviderTopologyHints 0 (fun oldCap _ => oldCap) 5
        InMemory.exampleHints (InMemory.readOnly (fun (n : Nat) p => n + p.sum)) 0
        InMemory.exampleMemory = .ok r ∧
      r.memory.headerArrays = InMemory.exampleMemory.headerArrays ∧
      (∀ (a : Nat) (cells : List Nat), InMemory.exampleMemory.hintArrays[a]? = some cells →
        ∃ cells' : List Nat, r.memory.hintArrays[a]? = some cells' ∧ cells'.length = cells.length ∧
          ∀ k : Nat, ¬ False → cells'[k]? = cells[k]?) ∧
      ((∀ a _k : Nat, a < InMemory.exampleMemory.hintArrays.length → ¬ False) →
        r.memory.hintArrays.take InMemory.exampleMemory.hintArrays.length
          = InMemory.exampleMemory.hintArrays ∧
        r.memory.hintLists InMemory.exampleHints
          = InMemory.exampleMemory.hintLists InMemory.exampleHints) :=
  ⟨fun _ m _ => ⟨rfl, fun _ cells h => ⟨cells, h, rfl, fun _ _ => rfl⟩⟩,
    by decide, by decide,
    enumeration_leaves_input_unchanged 0 (fun oldCap _ => oldCap) InMemory.exampleHints
      (InMemory.readOnly (fun (n : Nat) p => n + p.sum)) (fun _ _ => False)
      (fun _ m _ => ⟨rfl, fun _ cells h => ⟨cells, h, rfl, fun _ _ => rfl⟩⟩)
      0 InMemory.exampleMemory (by decide) 5 (by decide)⟩

/-- C11. The reduction rule of the hint merger.  The merger hands its callback
to the enumeration of `policy.go`; its result is the comparator folded over the
combined hints of the permutations delivered, in the order of delivery.  The
combined hint of a permutation has as affinity the intersection of the
affinity masks of the permutation (within the universe of NUMA nodes), and is
preferred if and only if every hint of the permutation is preferred. -/
theorem permutation_reduced_to_combined_hint (numNUMANodes : Nat)
    (keep : TopologyHint → Bool) (allProviderHints : List (List TopologyHint)) (fuel : Nat)
    (hfuel : allProviderHints.length < fuel) :
    ∃ r, iterateAllProviderTopologyHints fuel
        (normalizeProviderHints numNUMANodes allProviderHints)
        (mergeCallback numNUMANodes keep) { best := initialBest, survived := false } = .ok r ∧
      mergeHints fuel numNUMANodes keep allProviderHints = .ok r.state ∧
      r.state = (r.passed.map (mergePermutation numNUMANodes)).foldl
        (fun merger combined =>
          if keep combined then { best := selectBest merger.best combined, survived := true }
          else merger)
        { best := initialBest, survived := false } ∧
      ∀ permutation ∈ r.passed,
        (∀ x, x ∈ (mergePermutation numNUMANodes permutation).affinity ↔
          x < numNUMANodes ∧ ∀ h ∈ permutation, x ∈ h.affinity) ∧
        ((∀ h ∈ permutation, h.affinity ⊆ Finset.range numNUMANodes) → permutation ≠ [] →
          ∀ x, x ∈ (mergePermutation numNUMANodes permutation).affinity ↔
            ∀ h ∈ permutation, x ∈ h.affinity) ∧
        ((mergePermutation numNUMANodes permutation).preferred = true ↔
          ∀ h ∈ permutation, h.preferred = true) := by
  obtain ⟨r, hr, hm, hp, hs⟩ := mergeHints_eq fuel numNUMANodes keep allProviderHints hfuel
  refine ⟨r, hr, hm, ?_, ?_⟩
  · rw [hs, hp, List.foldl_map]
    rfl
  · intro permutation _
    refine ⟨mem_affinity_mergePermutation _ _, ?_, preferred_mergePermutation _ _⟩
    intro hsub hne x
    rw [mem_affinity_mergePermutation]
    constructor
    · exact fun h => h.2
    · intro hall
      refine ⟨?_, hall⟩
      cases permutation with
      | nil => exact absurd rfl hne
      | cons h rest =>
        have := hsub h (List.mem_cons_self _ _) (hall h (List.mem_cons_self _ _))
        exact Finset.mem_range.1 this

theorem permutation_reduced_to_combined_hint_witness :
    [[(⟨{0, 1}, true⟩ : TopologyHint)], [⟨{0}, true⟩, ⟨{1}, false⟩]].length < 3 ∧
    ∃ r, iterateAllProviderTopologyHints 3
        (normalizeProviderHints 2 [[⟨{0, 1}, true⟩], [⟨{0}, true⟩, ⟨{1}, false⟩]])
        (mergeCallback 2 (fun _ => true)) { best := initialBest, survived := false } = .ok r ∧
      mergeHints 3 2 (fun _ => true) [[⟨{0, 1}, true⟩], [⟨{0}, true⟩, ⟨{1}, false⟩]]
        = .ok r.state ∧
      r.state = (r.passed.map (mergePermutation 2)).foldl
        (fun merger combined =>
          if (fun _ => true) combined then
            { best := selectBest merger.best combined, survived := true }
          else merger)
        { best := initialBest, survived := false } ∧
      ∀ permutation ∈ r.passed,
        (∀ x, x ∈ (mergePermutation 2 permutation).affinity ↔
          x < 2 ∧ ∀ h ∈ permutation, x ∈ h.affinity) ∧
        ((∀ h ∈ permutation, h.affinity ⊆ Finset.range 2) → permutation ≠ [] →
          ∀ x, x ∈ (mergePermutation 2 permutation).affinity ↔
            ∀ h ∈ permutation, x ∈ h.affinity) ∧
        ((mergePermutation 2 permutation).preferred = true ↔
          ∀ h ∈ permutation, h.preferred = true) :=
  ⟨by decide,
    permutation_reduced_to_combined_hint 2 (fun _ => true)
      [[⟨{0, 1}, true⟩], [⟨{0}, true⟩, ⟨{1}, false⟩]] 3 (by decide)⟩

/-- A remark on §4.3 of the specification.  Under the comparator as it is
written there, the candidate `{mask: {0}, preferred: false}` does not replace
the initial best `{affinity: empty, preferred: false}`: it is not preferred, and
its affinity does not have fewer set bits than the empty affinity. -/
theorem non_preferred_candidate_not_selected :
    replaces ⟨{0}, false⟩ initialBest = false ∧
      selectBest initialBest ⟨{0}, false⟩ ≠ ⟨{0}, false⟩ := by
  decide

/-- A remark on §4.3 of the specification.  Under the comparator as it is
written there, a candidate replaces the initial best `{affinity: empty,
preferred: false}` if and only if it is preferred. -/
theorem initial_best_replaced_iff_preferred (candidate : TopologyHint) :
    replaces candidate initialBest = candidate.preferred ∧
      selectBest initialBest candidate
        = if candidate.preferred then candidate else initialBest := by
  have hrep : replaces candidate initialBest = candidate.preferred := by
    cases hp : candidate.preferred <;> simp [replaces, initialBest, hp]
  exact ⟨hrep, by simp only [selectBest, hrep]⟩

/-- C13. The verdicts of Restricted and BestEffort.  For every list of hint
lists both variants return the same merged hint, the best hint of the merger
over all permutations; Restricted admits if and only if that hint is preferred
and otherwise rejects with a reason; BestEffort always admits.  For the two
providers reporting only `{mask: {0}, preferred: false}` and `{mask: {1},
preferred: false}` the merged hint is `{empty, preferred: false}`, rejected by
Restricted and admitted by BestEffort. -/
theorem restricted_admits_iff_preferred (numNUMANodes : Nat)
    (allProviderHints : List (List TopologyHint)) (fuel : Nat)
    (hfuel : allProviderHints.length < fuel) :
    (∃ best verdict,
      PolicyVariant.restricted.Merge fuel numNUMANodes allProviderHints = .ok (best, verdict) ∧
      PolicyVariant.bestEffort.Merge fuel numNUMANodes allProviderHints
        = .ok (best, { admits := true, reason := none }) ∧
      best = ((nestedLoops (normalizeProviderHints numNUMANodes allProviderHints)).foldl
        (mergeCallback numNUMANodes fun _ => true)
        { best := initialBest, survived := false }).best ∧
      (verdict.admits = true ↔ best.preferred = true) ∧
      (verdict.admits = false ↔ verdict.reason.isSome = true)) ∧
    PolicyVariant.restricted.Merge 3 2 [[⟨{0}, false⟩], [⟨{1}, false⟩]]
      = .ok (⟨∅, false⟩, { admits := false, reason := some "resources cannot be aligned" }) ∧
    PolicyVariant.bestEffort.Merge 3 2 [[⟨{0}, false⟩], [⟨{1}, false⟩]]
      = .ok (⟨∅, false⟩, { admits := true, reason := none }) := by
  refine ⟨?_, by rfl, by rfl⟩
  have hkr : PolicyVariant.restricted.keep = fun _ => true := by funext c; rfl
  have hkb : PolicyVariant.bestEffort.keep = fun _ => true := by funext c; rfl
  obtain ⟨r, _, hm, _, hs⟩ :=
    mergeHints_eq fuel numNUMANodes (fun _ => true) allProviderHints hfuel
  refine ⟨r.state.best,
    if r.state.best.preferred then { admits := true, reason := none }
    else { admits := false, reason := some "resources cannot be aligned" },
    ?_, ?_, by rw [hs], ?_, ?_⟩
  · simp only [PolicyVariant.Merge, hkr, hm]
  · simp only [PolicyVariant.Merge, hkb, hm]
  · cases hp : r.state.best.preferred <;> simp
  · cases hp : r.state.best.preferred <;> simp

theorem restricted_admits_iff_preferred_witness :
    [[(⟨{0}, true⟩ : TopologyHint)], [⟨{0, 1}, true⟩]].length < 3 ∧
    ((∃ best verdict,
      PolicyVariant.restricted.Merge 3 2 [[⟨{0}, true⟩], [⟨{0, 1}, true⟩]]
        = .ok (best, verdict) ∧
      PolicyVariant.bestEffort.Merge 3 2 [[⟨{0}, true⟩], [⟨{0, 1}, true⟩]]
        = .ok (best, { admits := true, reason := none }) ∧
      best = ((nestedLoops (normalizeProviderHints 2 [[⟨{0}, true⟩], [⟨{0, 1}, true⟩]])).foldl
        (mergeCallback 2 fun _ => true)
        { best := initialBest, survived := false }).best ∧
      (verdict.admits = true ↔ best.preferred = true) ∧
      (verdict.admits = false ↔ verdict.reason.isSome = true)) ∧
    PolicyVariant.restricted.Merge 3 2 [[⟨{0}, false⟩], [⟨{1}, false⟩]]
      = .ok (⟨∅, false⟩, { admits := false, reason := some "resources cannot be aligned" }) ∧
    PolicyVariant.bestEffort.Merge 3 2 [[⟨{0}, false⟩], [⟨{1}, false⟩]]
      = .ok (⟨∅, false⟩, { admits := true, reason := none })) :=
  ⟨by decide, restricted_admits_iff_preferred 2 [[⟨{0}, true⟩], [⟨{0, 1}, true⟩]] 3 (by decide)⟩

/-- C14. Exchanging two adjacent providers `k` and `k + 1` changes the
enumeration only by order: the permutations handed to the callback for the
exchanged list are, up to order (as a multiset), those handed over for the
original list with their elements `k` and `k + 1` exchanged. -/
theorem swapping_providers_permutes_result {σ α : Type} (allProviderHints : List (List α))
    (callback : σ → List α → σ) (s : σ) (fuel k : Nat)
    (hk : k + 1 < allProviderHints.length) (hfuel : allProviderHints.length < fuel) :
    ∃ r r', iterateAllProviderTopologyHints fuel allProviderHints callback s = .ok r ∧
      iterateAllProviderTopologyHints fuel (swapAdjacent k allProviderHints) callback s
        = .ok r' ∧
      r'.passed.Perm (r.passed.map (swapAdjacent k)) := by
  obtain ⟨r, hr, hp, _⟩ := passed_run allProviderHints callback s fuel hfuel
  obtain ⟨r', hr', hp', _⟩ := passed_run (swapAdjacent k allProviderHints) callback s fuel
    (by rw [length_swapAdjacent]; exact hfuel)
  refine ⟨r, r', hr, hr', ?_⟩
  rw [hp, hp']
  exact nestedLoops_swapAdjacent k allProviderHints hk

theorem swapping_providers_permutes_result_witness :
    1 + 1 < [[10, 20], [30], [40, 50]].length ∧ [[10, 20], [30], [40, 50]].length < 4 ∧
    ∃ r r', iterateAllProviderTopologyHints 4 [[10, 20], [30], [40, 50]]
        (fun (n : Nat) _ => n + 1) 0 = .ok r ∧
      iterateAllProviderTopologyHints 4 (swapAdjacent 1 [[10, 20], [30], [40, 50]])
        (fun (n : Nat) _ => n + 1) 0 = .ok r' ∧
      r'.passed.Perm (r.passed.map (swapAdjacent 1)) :=
  ⟨by decide, by decide,
    swapping_providers_permutes_result [[10, 20], [30], [40, 50]] _ 0 4 1
      (by decide) (by decide)⟩

/-- C15. Index safety.  Whatever the stack budget, the enumeration never stops
on an out-of-range index: `allProviderHints[i]` is evaluated only for
`i < len(allProviderHints)` and `allProviderHints[i][j]` only for
`j < len(allProviderHints[i])`. -/
theorem no_index_out_of_range {σ α : Type} (allProviderHints : List (List α))
    (callback : σ → List α → σ) (s : σ) (fuel : Nat) :
    iterateAllProviderTopologyHints fuel allProviderHints callback s
      ≠ .error .indexOutOfRange :=
  iterate_ne_indexOutOfRange allProviderHints callback fuel 0 [] _ (Nat.zero_le _)

/-- C16. A provider with a single hint is neutral.  Inserting the hint list
`[h]` as a new provider at position `k` gives as many permutations, in the same
order, each being the corresponding original permutation with `h` inserted at
position `k`; the callback's final state is the fold over these. -/
theorem singleton_provider_neutral {σ α : Type} (allProviderHints : List (List α))
    (callback : σ → List α → σ) (s : σ) (fuel k : Nat) (h : α)
    (hk : k ≤ allProviderHints.length) (hfuel : allProviderHints.length + 1 < fuel) :
    ∃ r r', iterateAllProviderTopologyHints fuel allProviderHints callback s = .ok r ∧
      iterateAllProviderTopologyHints fuel (allProviderHints.insertIdx k [h]) callback s
        = .ok r' ∧
      r'.passed = r.passed.map (fun p => p.insertIdx k h) ∧
      r'.passed.length = r.passed.length ∧
      r'.state = (r.passed.map fun p => p.insertIdx k h).foldl callback s := by
  obtain ⟨r, hr, hp, _⟩ := passed_run allProviderHints callback s fuel (by omega)
  obtain ⟨r', hr', hp', hs'⟩ := passed_run (allProviderHints.insertIdx k [h]) callback s fuel
    (by rw [List.length_insertIdx _ _ hk]; exact hfuel)
  have heq : r'.passed = r.passed.map (fun p => p.insertIdx k h) := by
    rw [hp, hp', nestedLoops_insertIdx h k allProviderHints hk]
  refine ⟨r, r', hr, hr', heq, by rw [heq, List.length_map], ?_⟩
  rw [hs', ← hp', heq]

theorem singleton_provider_neutral_witness :
    1 ≤ [[10, 20], [30, 40]].length ∧ [[10, 20], [30, 40]].length + 1 < 4 ∧
    ∃ r r', iterateAllProviderTopologyHints 4 [[10, 20], [30, 40]]
        (fun (l : List Nat) p => l ++ p) [] = .ok r ∧
      iterateAllProviderTopologyHints 4 ([[10, 20], [30, 40]].insertIdx 1 [7])
        (fun (l : List Nat) p => l ++ p) [] = .ok r' ∧
      r'.passed = r.passed.map (fun p => p.insertIdx 1 7) ∧
      r'.passed.length = r.passed.length ∧
      r'.state = (r.passed.map fun p => p.insertIdx 1 7).foldl
        (fun (l : List Nat) p => l ++ p) [] :=
  ⟨by decide, by decide,
    singleton_provider_neutral [[10, 20], [30, 40]] _ [] 4 1 7 (by decide) (by decide)⟩

/-- C17. Splitting the first provider.  The permutations for
`(L₁ ++ L₂) :: rest` are those for `L₁ :: rest` followed by those for
`L₂ :: rest`; accordingly the execution for `(L₁ ++ L₂) :: rest` ends in the
callback state reached by the execution for `L₂ :: rest` started from the final
state of the execution for `L₁ :: rest`. -/
theorem splitting_first_provider {σ α : Type} (hints₁ hints₂ : List α)
    (rest : List (List α)) (callback : σ → List α → σ) (s : σ) (fuel : Nat)
    (hfuel : rest.length + 1 < fuel) :
    ∃ r r₁ r₂, iterateAllProviderTopologyHints fuel ((hints₁ ++ hints₂) :: rest) callback s
        = .ok r ∧
      iterateAllProviderTopologyHints fuel (hints₁ :: rest) callback s = .ok r₁ ∧
      iterateAllProviderTopologyHints fuel (hints₂ :: rest) callback r₁.state = .ok r₂ ∧
      r.passed = r₁.passed ++ r₂.passed ∧ r.state = r₂.state := by
  obtain ⟨r, hr, hp, hs⟩ := passed_run ((hints₁ ++ hints₂) :: rest) callback s fuel
    (by simpa using hfuel)
  obtain ⟨r₁, hr₁, hp₁, hs₁⟩ := passed_run (hints₁ :: rest) callback s fuel
    (by simpa using hfuel)
  obtain ⟨r₂, hr₂, hp₂, hs₂⟩ := passed_run (hints₂ :: rest) callback r₁.state fuel
    (by simpa using hfuel)
  refine ⟨r, r₁, r₂, hr, hr₁, hr₂, ?_, ?_⟩
  · rw [hp, hp₁, hp₂, nestedLoops_append_first]
  · rw [hs, hs₂, hs₁, nestedLoops_append_first, List.foldl_append]

theorem splitting_first_provider_witness :
    [[30, 40]].length + 1 < 3 ∧
    ∃ r r₁ r₂, iterateAllProviderTopologyHints 3 (([10] ++ [20, 25]) :: [[30, 40]])
        (fun (l : List Nat) p => l ++ p) [] = .ok r ∧
      iterateAllProviderTopologyHints 3 ([10] :: [[30, 40]])
        (fun (l : List Nat) p => l ++ p) [] = .ok r₁ ∧
      iterateAllProviderTopologyHints 3 ([20, 25] :: [[30, 40]])
        (fun (l : List Nat) p => l ++ p) r₁.state = .ok r₂ ∧
      r.passed = r₁.passed ++ r₂.passed ∧ r.state = r₂.state :=
  ⟨by decide, splitting_first_provider [10] [20, 25] [[30, 40]] _ [] 3 (by decide)⟩

/-- C18. The accumulator invariant, over Go memory and for a callback that
reads the permutation it is handed.  At every entry `iterate(i, accum)` the
elements held by `accum` in memory are `i` in number and are the hints selected
by an index tuple for the first `i` providers; the entries with a given `i`, in
order, hold exactly the selections for the first `i` providers in the order of
the nested loops.  A call `iterate(i, accum)`, with all the deeper calls it
makes, leaves the elements of `accum` and the value of `allProviderHints` as
they were: it writes only spare capacity and fresh arrays. -/
theorem accumulator_invariant {σ α : Type} (zero : α) (extraCap : Nat → Nat → Nat)
    (allProviderHints : Slice) (callback : σ → List α → σ) (s : σ) (m : Memory α)
    (hinput : m.WellFormed allProviderHints) (fuel : Nat)
    (hfuel : allProviderHints.len < fuel) :
    (∃ r, InMemory.iterateAllProviderTopologyHints zero extraCap fuel allProviderHints
        (InMemory.readOnly callback) s m = .ok r ∧
      (∀ budget i accum, Event.enter budget i accum ∈ r.trace →
        i ≤ allProviderHints.len ∧ accum.length = i ∧
          ∃ js, ValidTuple ((m.hintLists allProviderHints).take i) js ∧
            select ((m.hintLists allProviderHints).take i) js = some accum) ∧
      ∀ d, d ≤ allProviderHints.len →
        callsAt d (entered r.trace) = nestedLoops ((m.hintLists allProviderHints).take d)) ∧
    ∀ (depth i : Nat) (accum : Slice) (r₀ : InMemory.Run σ α),
      i ≤ allProviderHints.len → allProviderHints.len - i ≤ depth →
      r₀.memory.WellFormed allProviderHints → r₀.memory.ValidAccum accum →
      r₀.memory.Apart allProviderHints accum →
      ∃ r₁, InMemory.iterate zero extraCap allProviderHints (InMemory.readOnly callback)
          (depth + 1) i accum r₀ = .ok r₁ ∧
        Memory.SameExcept accum.spare r₀.memory r₁.memory ∧
        r₁.memory.contents accum = r₀.memory.contents accum ∧
        r₁.memory.hintLists allProviderHints = r₀.memory.hintLists allProviderHints := by
  constructor
  · obtain ⟨r, hr, hval, _⟩ :=
      InMemory.run_refines zero extraCap allProviderHints callback s m hinput fuel hfuel
    have hlen := Memory.length_hintLists hinput
    have htrace : r.trace = traceFrom (m.hintLists allProviderHints) (fuel - 1) 0 [] := by
      rw [run_eq _ callback s fuel (by rw [hlen]; exact hfuel)] at hval
      have := congrArg Run.trace (Except.ok.inj hval)
      exact this.symm
    refine ⟨r, hr, ?_, ?_⟩
    · intro budget i accum hmem
      rw [htrace] at hmem
      have := enter_traceFrom_selected _ _ _ _ _ hmem
      rw [hlen] at this
      exact this
    · intro d hd
      rw [htrace]
      have := callsAt_traceFrom (m.hintLists allProviderHints) (fuel - 1) 0 [] d
      rw [Nat.zero_add, hlen, if_pos hd] at this
      rw [this]
      simp
  · intro depth i accum r₀ hi hdepth hwf hv hap
    obtain ⟨r₁, hr₁, hsame, _⟩ :=
      InMemory.iterate_refines zero extraCap allProviderHints callback depth i accum r₀
        hi hdepth hwf hv hap
    exact ⟨r₁, hr₁, hsame, hv.contents_kept hsame, Memory.hintLists_eq_of_apart hwf hap hsame⟩


theorem accumulator_invariant_witness :
    InMemory.exampleMemory.WellFormed InMemory.exampleHints ∧
    InMemory.exampleHints.len < 5 ∧
    ((∃ r, InMemory.iterateAllProviderTopologyHints 0 (fun oldCap _ => oldCap) 5
        InMemory.exampleHints (InMemory.readOnly (fun (n : Nat) p => n + p.sum)) 0
        InMemory.exampleMemory = .ok r ∧
      (∀ budget i accum, Event.enter budget i accum ∈ r.trace →
        i ≤ InMemory.exampleHints.len ∧ accum.length = i ∧
          ∃ js, ValidTuple ((InMemory.exampleMemory.hintLists InMemory.exampleHints).take i) js ∧
            select ((InMemory.exampleMemory.hintLists InMemory.exampleHints).take i) js
              = some accum) ∧
      ∀ d, d ≤ InMemory.exampleHints.len →
        callsAt d (entered r.trace)
          = nestedLoops ((InMemory.exampleMemory.hintLists InMemory.exampleHints).take d)) ∧
    ∀ (depth i : Nat) (accum : Slice) (r₀ : InMemory.Run Nat Nat),
      i ≤ InMemory.exampleHints.len → InMemory.exampleHints.len - i ≤ depth →
      r₀.memory.WellFormed InMemory.exampleHints → r₀.memory.ValidAccum accum →
      r₀.memory.Apart InMemory.exampleHints accum →
      ∃ r₁, InMemory.iterate 0 (fun oldCap _ => oldCap) InMemory.exampleHints
          (InMemory.readOnly (fun (n : Nat) p => n + p.sum)) (depth + 1) i accum r₀ = .ok r₁ ∧
        Memory.SameExcept accum.spare r₀.memory r₁.memory ∧
        r₁.memory.contents accum = r₀.memory.contents accum ∧
        r₁.memory.hintLists InMemory.exampleHints
          = r₀.memory.hintLists InMemory.exampleHints) :=
  ⟨by decide, by decide,
    accumulator_invariant 0 (fun oldCap _ => oldCap) InMemory.exampleHints
      (fun (n : Nat) p => n + p.sum) 0 InMemory.exampleMemory (by decide) 5 (by decide)⟩

/-- C1. On the input `[[1], [2], [3], [4, 5]]`, with the capacity growth 1, 2,
4 of the gc run time, `iterateAllProviderTopologyHints` is not the equivalent of
the nested loops of its doc comment.  The fourth hint is stored in place, in the
spare cell of the array that holds the first three, so that the two
permutations share one backing array.  A callback that keeps the permutations
ends with both kept slices reading `[1, 2, 3, 5]`, where the loops of the doc
comment, which build each permutation anew, leave `[1, 2, 3, 4]` and
`[1, 2, 3, 5]`.  A callback that notes each permutation and then assigns `99`
to its first element is handed `[99, 2, 3, 5]` as second permutation and ends
in a state other than the one the loops of the doc comment give. -/
theorem kept_permutations_overwritten :
    (InMemory.iterateAllProviderTopologyHints 0 InMemory.doubling 5
        InMemory.fourProvidersHints InMemory.keeping [] InMemory.fourProviders).toOption.map
          (fun r => r.state.map r.memory.contents)
      = some [[1, 2, 3, 5], [1, 2, 3, 5]] ∧
    (InMemory.docCommentLoops InMemory.fourProvidersHints InMemory.keeping []
        InMemory.fourProviders).1.map
      (InMemory.docCommentLoops InMemory.fourProvidersHints InMemory.keeping []
        InMemory.fourProviders).2.contents
      = [[1, 2, 3, 4], [1, 2, 3, 5]] ∧
    (InMemory.iterateAllProviderTopologyHints 0 InMemory.doubling 5
        InMemory.fourProvidersHints (InMemory.notingThenWriting 99) []
        InMemory.fourProviders).toOption.map (fun r => r.state)
      = some [[1, 2, 3, 4], [99, 2, 3, 5]] ∧
    (InMemory.docCommentLoops InMemory.fourProvidersHints (InMemory.notingThenWriting 99) []
        InMemory.fourProviders).1
      = [[1, 2, 3, 4], [1, 2, 3, 5]] ∧
    nestedLoops (InMemory.fourProviders.hintLists InMemory.fourProvidersHints)
      = [[1, 2, 3, 4], [1, 2, 3, 5]] := by
  decide

/-- C9. On the input `[[1], [2], [3], [4, 5]]`, with the capacity growth 1, 2, 4
of the gc run time, the permutations handed over depend on the callback.  A
callback that only notes the permutation is handed `[1, 2, 3, 4]`, then
`[1, 2, 3, 5]`; a callback that notes it and then assigns `99` to its first
element is handed `[1, 2, 3, 4]`, then `[99, 2, 3, 5]`: the second permutation
lies in the array the first was handed over in.  The value of
`allProviderHints` is the same after both executions. -/
theorem permutations_handed_depend_on_callback :
    (InMemory.iterateAllProviderTopologyHints 0 InMemory.doubling 5
        InMemory.fourProvidersHints
        (InMemory.readOnly fun (seen : List (List Nat)) p => seen ++ [p]) []
        InMemory.fourProviders).toOption.map
          (fun r => (r.forget.passed, r.memory.hintLists InMemory.fourProvidersHints))
      = some ([[1, 2, 3, 4], [1, 2, 3, 5]], [[1], [2], [3], [4, 5]]) ∧
    (InMemory.iterateAllProviderTopologyHints 0 InMemory.doubling 5
        InMemory.fourProvidersHints (InMemory.notingThenWriting 99) []
        InMemory.fourProviders).toOption.map
          (fun r => (r.forget.passed, r.memory.hintLists InMemory.fourProvidersHints))
      = some ([[1, 2, 3, 4], [99, 2, 3, 5]], [[1], [2], [3], [4, 5]]) := by
  decide

end TopologyManager
